import Mathlib

/-!
Verification development for `myHeap.c`, a boundary-tag heap allocator with
best-fit placement, in-place splitting, deferred (explicit) coalescing and a
single end-marker sentinel.

Modelling notes.
The managed region is a flat memory `mem : Int → Int`, indexed by byte offset
from `heapStart`; every access in the source is a 4-byte aligned `int` load or
store, so one cell per offset is faithful.  The globals `heapStart` and
`allocsize` become the `base` and `allocsize` fields of `Heap`.  The program is
an ILP32 (32-bit, `gcc -m32`) build — witnessed by the `(int)ptr` cast in
`myFree` — so `sizeof(blockHeader)` and `sizeof(blockHeader*)` are both 4.
Loops are modelled with explicit fuel; `none` marks fuel exhaustion, which is
proved unreachable on well-formed heaps.  All arithmetic is exact `Int`
arithmetic: every value the source manipulates fits easily in a 32-bit `int`.
-/

/-- The managed region: memory (byte-offset indexed, one cell per 4-byte
`int`), the usable size `allocsize`, and the absolute address `base` of
`heapStart` (the one-time `mmap` result plus 4, hence `base % 8 = 4`). -/
structure Heap where
  mem : Int → Int
  allocsize : Int
  base : Int

/-- Load the `int` stored at byte offset `o` from `heapStart`. -/
def Heap.read (h : Heap) (o : Int) : Int := h.mem o

/-- Store `v` at byte offset `o` from `heapStart`. -/
def Heap.write (h : Heap) (o v : Int) : Heap :=
  { h with mem := fun x => if x = o then v else h.mem x }

/-- The needed block size of `myAlloc`: the requested payload plus 4 bytes of
header, rounded up to a multiple of 8 (lines 106-111 of the source). -/
def needSize (size : Int) : Int :=
  if (size + 4) % 8 ≠ 0 then size + 4 + 8 - (size + 4) % 8 else size + 4

/-- The best-fit scan loop of `myAlloc` (source lines 113-157).  `acc = none`
models `flag == 0`; otherwise `acc = some (best, best_size)`.  The source sets
`best` on the first candidate and thereafter replaces it only on a strictly
smaller sufficient free block; both paths are the single `match` below.
Returns `none` on fuel exhaustion (unreachable on well-formed heaps).
`accUpd` is the candidate update: install the first candidate (`flag = 0`
path), thereafter replace only on a strictly smaller size. -/
def accUpd (cur csz : Int) : Option (Int × Int) → Option (Int × Int)
  | none => some (cur, csz)
  | some (b, bs) => if csz < bs then some (cur, csz) else some (b, bs)

def allocScan (h : Heap) (size : Int) : Nat → Int → Option (Int × Int) → Option (Option (Int × Int))
  | 0, _, _ => none
  | fuel+1, cur, acc =>
    if h.read cur = 1 then some acc
    else
      let csz := h.read cur - h.read cur % 8
      if h.read cur % 2 ≠ 0 ∨ csz < size then
        allocScan h size fuel (cur + csz) acc
      else
        allocScan h size fuel (cur + csz) (accUpd cur csz acc)

/-- `myAlloc` (source lines 98-200).  Returns `some (none, h)` for a NULL
return, `some (some p, h')` for a successful allocation of absolute payload
address `p`, and `none` for fuel exhaustion of the scan. -/
def myAlloc (h : Heap) (size : Int) : Option (Option Int × Heap) :=
  if size ≤ 0 ∨ h.allocsize < size then some (none, h)
  else
    let sz := needSize size
    match allocScan h sz (h.allocsize.toNat + 1) 0 none with
    | none => none
    | some none => some (none, h)
    | some (some (best, bsz)) =>
      if bsz = sz then
        let h1 := h.write best (h.read best + 1)
        let nxt := best + bsz
        let h2 := if h1.read nxt ≠ 1 then h1.write nxt (h1.read nxt + 2) else h1
        some (some (h.base + best + 4), h2)
      else
        let nxt := best + sz
        let h1 := h.write best (h.read best + sz - bsz + 1)
        let h2 := h1.write nxt (2 + 0 + (bsz - sz))
        let h3 := h2.write (nxt + bsz - sz - 4) (bsz - sz)
        some (some (h.base + best + 4), h3)

/-- `myFree` (source lines 214-266).  `ptr` is the absolute payload address
(`0` models NULL); the header sits 4 bytes below it.  The block size is read
back from the header after the alloc bit has been cleared, exactly as in the
source. -/
def myFree (h : Heap) (ptr : Int) : Int × Heap :=
  if ptr = 0 then (-1, h)
  else if ptr % 8 ≠ 0 then (-1, h)
  else if ptr < h.base ∨ h.base + h.allocsize < ptr then (-1, h)
  else
    let hdr := ptr - h.base - 4
    if h.read hdr % 2 = 0 then (-1, h)
    else
      let h1 := h.write hdr (h.read hdr - 1)
      let bsz := h1.read hdr - h1.read hdr % 8
      let nxt := hdr + bsz
      let h2 := if h1.read nxt ≠ 1 then h1.write nxt (h1.read nxt - Int.land (h1.read nxt) 2) else h1
      let h3 := h2.write (hdr + bsz - 4) bsz
      (0, h3)

/-- The `coalesce` loop (source lines 275-316).  On a merge the source leaves
`ptr` in place and lets the `while` re-read the grown header; the recursive
call with the same `ptr` models that.  `sizeof(blockHeader*)` is 4 in the
ILP32 build, so the merged footer is the last word of the absorbed block. -/
def coalesceLoop : Nat → Heap → Int → Option Heap
  | 0, _, _ => none
  | fuel+1, h, ptr =>
    if h.read ptr = 1 then some h
    else
      let psz := h.read ptr - h.read ptr % 8
      if Int.land (h.read ptr) 1 ≠ 0 then coalesceLoop fuel h (ptr + psz)
      else
        let nxt := ptr + psz
        if Int.land (h.read nxt) 1 ≠ 0 then coalesceLoop fuel h nxt
        else
          let nsz := h.read nxt - h.read nxt % 8
          let h1 := h.write ptr (h.read ptr + nsz)
          let h2 := h1.write (nxt + nsz - 4) (h1.read (nxt + nsz - 4) + psz)
          coalesceLoop fuel h2 ptr

/-- `coalesce`, with enough fuel for any well-formed heap. -/
def coalesce (h : Heap) : Option Heap := coalesceLoop (h.allocsize.toNat + 1) h 0

/-- The all-zero region `mmap` hands back (`/dev/zero` backing). -/
def zeroHeap (a b : Int) : Heap := { mem := fun _ => 0, allocsize := a, base := b }

/-- The heap produced by a successful `myInit` with usable size `a` at base
address `b`: end mark, initial free header (size, then `+ 2` for the p-bit),
footer — in the source's write order (lines 380-393). -/
def initHeap (a b : Int) : Heap :=
  let h0 := zeroHeap a b
  let h1 := h0.write a 1
  let h2 := h1.write 0 a
  let h3 := h2.write 0 (h2.read 0 + 2)
  h3.write (a - 4) a

/-- The process-wide allocator globals: the `allocated_once` guard, the
`heapStart` pointer (`0` models NULL) and the `allocsize` variable. -/
structure GlobalState where
  allocated_once : Int
  heapStartAddr : Int
  allocsize : Int
deriving DecidableEq

/-- `myInit` (source lines 326-396) as a transition on the globals.
`mmapResult` models the region provider: `none` when `open("/dev/zero")` or
`mmap` fails, `some p` for a page-aligned region at `p`.  Note that the global
`allocsize` is assigned (line 356) before either provider check can fail. -/
def myInit (g : GlobalState) (pagesize : Int) (mmapResult : Option Int)
    (sizeOfRegion : Int) : Int × GlobalState × Option Heap :=
  if g.allocated_once ≠ 0 then (-1, g, none)
  else if sizeOfRegion ≤ 0 then (-1, g, none)
  else
    let padsize := (pagesize - sizeOfRegion % pagesize) % pagesize
    let g1 : GlobalState := { g with allocsize := sizeOfRegion + padsize }
    match mmapResult with
    | none => (-1, { g1 with allocated_once := 0 }, none)
    | some mmapPtr =>
      let usable := g1.allocsize - 8
      let g2 : GlobalState :=
        { allocated_once := 1, heapStartAddr := mmapPtr + 4, allocsize := usable }
      (0, g2, some (initHeap usable (mmapPtr + 4)))

/-- Header walk from the region start accumulating the stripped size fields,
as the `dispMem` traversal does (source lines 430-463); stops at the end
marker. -/
def walkTotalLoop (h : Heap) : Nat → Int → Int → Option Int
  | 0, _, _ => none
  | fuel+1, cur, acc =>
    if h.read cur = 1 then some acc
    else
      let csz := h.read cur - h.read cur % 8
      walkTotalLoop h fuel (cur + csz) (acc + csz)

/-- Total of all block sizes reachable by the header walk. -/
def walkTotal (h : Heap) : Option Int := walkTotalLoop h (h.allocsize.toNat + 1) 0 0

/-! ### Abstract block lists

A heap state is described by the list of its blocks in address order.  The
relation `BlocksAt` states that a heap realises such a list: every block has
the encoded header, every free block carries its footer, and the end marker
terminates the list.  Words not constrained by `BlocksAt` (payloads, stale
footers) are arbitrary, exactly as in the running program. -/

/-- One block: its total size (a positive multiple of 8) and whether it is
allocated. -/
structure Blk where
  size : Int
  alloc : Bool
deriving DecidableEq

/-- Sum of the block sizes of a list. -/
def sumSizes : List Blk → Int
  | [] => 0
  | b :: bs => b.size + sumSizes bs

/-- The packed `size_status` header word of block `b` whose predecessor's
allocation status is `p`. -/
def hdrVal (b : Blk) (p : Bool) : Int :=
  b.size + (if b.alloc then 1 else 0) + (if p then 2 else 0)

/-- Well-formed block list: every size is a positive multiple of 8. -/
def WFL (bl : List Blk) : Prop := ∀ b ∈ bl, 8 ≤ b.size ∧ b.size % 8 = 0

instance WFL.decidable (bl : List Blk) : Decidable (WFL bl) :=
  decidable_of_iff (∀ b ∈ bl, 8 ≤ b.size ∧ b.size % 8 = 0) Iff.rfl

/-- The heap realises block list `bl` starting at offset `off`, the previous
block having allocation status `p`, with the end marker just past the last
block. -/
def BlocksAt : Heap → List Blk → Bool → Int → Prop
  | h, [], _, off => h.read off = 1
  | h, b :: bs, p, off =>
    h.read off = hdrVal b p ∧
    (b.alloc = false → h.read (off + b.size - 4) = b.size) ∧
    BlocksAt h bs b.alloc (off + b.size)

/-- Like `BlocksAt` but without the terminating end marker: a segment of the
block list. -/
def SegAt : Heap → List Blk → Bool → Int → Prop
  | _, [], _, _ => True
  | h, b :: bs, p, off =>
    h.read off = hdrVal b p ∧
    (b.alloc = false → h.read (off + b.size - 4) = b.size) ∧
    SegAt h bs b.alloc (off + b.size)

/-- The heap realises the full block list `bl`: blocks from offset 0 with an
"allocated" virtual predecessor, and the walk covers the whole usable size. -/
def HeapOf (h : Heap) (bl : List Blk) : Prop :=
  BlocksAt h bl true 0 ∧ sumSizes bl = h.allocsize

/-- Allocation status of the last block of a list (`p` for the empty list). -/
def lastAlloc (p : Bool) : List Blk → Bool
  | [] => p
  | b :: bs => lastAlloc b.alloc bs

/-- Reference memory for a block list: headers, free footers, the end marker,
zero elsewhere (a fresh `mmap` region is zeroed). -/
def layoutMem : List Blk → Bool → Int → Int → Int
  | [], _, off, o => if o = off then 1 else 0
  | b :: bs, p, off, o =>
    if o = off then hdrVal b p
    else if b.alloc = false ∧ o = off + b.size - 4 then b.size
    else layoutMem bs b.alloc (off + b.size) o

/-- A concrete heap realising block list `bl` at base address `base`. -/
def buildHeap (bl : List Blk) (base : Int) : Heap :=
  { mem := layoutMem bl true 0, allocsize := sumSizes bl, base := base }

/-- List-level model of the best-fit scan: same accumulator discipline as
`allocScan`, over the abstract blocks. -/
def bestFitL : List Blk → Int → Int → Option (Int × Int) → Option (Int × Int)
  | [], _, _, acc => acc
  | b :: bs, need, off, acc =>
    if b.alloc = true ∨ b.size < need then bestFitL bs need (off + b.size) acc
    else bestFitL bs need (off + b.size) (accUpd off b.size acc)

/-- The candidates of the best-fit search: offsets and sizes of the free
blocks large enough for `need`, in address order. -/
def candList : List Blk → Int → Int → List (Int × Int)
  | [], _, _ => []
  | b :: bs, need, off =>
    (if b.alloc = false ∧ need ≤ b.size then [(off, b.size)] else []) ++
      candList bs need (off + b.size)

/-- Fold selecting the first strictly-smallest entry of a candidate list. -/
def pickBest : Option (Int × Int) → List (Int × Int) → Option (Int × Int)
  | acc, [] => acc
  | acc, c :: cs => pickBest (accUpd c.1 c.2 acc) cs

/-- `(o, s)` is a sufficient free block for `need`: `bl` contains a free block
of size `s ≥ need` at offset `o`. -/
def IsCand (bl : List Blk) (need o s : Int) : Prop :=
  ∃ pre suf, bl = pre ++ ⟨s, false⟩ :: suf ∧ o = sumSizes pre ∧ need ≤ s

/-- List-level model of `coalesce`: `pend = some s` is an open run of free
blocks of accumulated size `s`. -/
def coalRec : Option Int → List Blk → List Blk
  | none, [] => []
  | some s, [] => [⟨s, false⟩]
  | none, b :: bs => if b.alloc then b :: coalRec none bs else coalRec (some b.size) bs
  | some s, b :: bs =>
    if b.alloc then ⟨s, false⟩ :: b :: coalRec none bs else coalRec (some (s + b.size)) bs

/-- Merge every maximal run of adjacent free blocks of a block list. -/
def coalesceL (bl : List Blk) : List Blk := coalRec none bl

/-! ### Basic heap lemmas -/

theorem read_write (h : Heap) (o v x : Int) :
    (h.write o v).read x = if x = o then v else h.read x := rfl

theorem read_write_self (h : Heap) (o v : Int) : (h.write o v).read o = v := by
  simp [read_write]

theorem read_write_ne (h : Heap) (o v x : Int) (hx : x ≠ o) :
    (h.write o v).read x = h.read x := by
  simp [read_write, hx]

theorem write_base (h : Heap) (o v : Int) : (h.write o v).base = h.base := rfl

theorem write_allocsize (h : Heap) (o v : Int) : (h.write o v).allocsize = h.allocsize := rfl

/-! ### Bitwise helpers

The source tests bits with both `%` and `&`; on the non-negative header words
the two agree, via the following closed forms of `Int.land`. -/

theorem int_land_one (x : Int) (hx : 0 ≤ x) : Int.land x 1 = x % 2 := by
  obtain ⟨n, rfl⟩ : ∃ n : Nat, x = Int.ofNat n := ⟨x.toNat, (Int.toNat_of_nonneg hx).symm⟩
  show Int.ofNat (n &&& 1) = Int.ofNat n % 2
  rw [Nat.and_one_is_mod]
  simp only [Int.ofNat_eq_natCast]
  push_cast
  omega

theorem int_land_two (x : Int) (hx : 0 ≤ x) : Int.land x 2 = x % 4 - x % 2 := by
  obtain ⟨n, rfl⟩ : ∃ n : Nat, x = Int.ofNat n := ⟨x.toNat, (Int.toNat_of_nonneg hx).symm⟩
  show Int.ofNat (n &&& 2) = Int.ofNat n % 4 - Int.ofNat n % 2
  have h2 : n &&& 2 ^ 1 = (n.testBit 1).toNat * 2 ^ 1 := Nat.and_two_pow n 1
  rw [Nat.testBit_to_div_mod] at h2
  norm_num at h2
  rw [h2]
  by_cases hb : n / 2 % 2 = 1
  · simp only [hb, decide_True, Bool.toNat_true, Int.ofNat_eq_natCast]
    push_cast
    omega
  · simp only [hb, decide_False, Bool.toNat_false, Int.ofNat_eq_natCast]
    push_cast
    omega

/-! ### Header word arithmetic -/

theorem hdrVal_nonneg (b : Blk) (p : Bool) (hs : 8 ≤ b.size) : 0 ≤ hdrVal b p := by
  cases hb : b.alloc <;> cases p <;> simp [hdrVal, hb] <;> omega

theorem hdrVal_ne_one (b : Blk) (p : Bool) (hs : 8 ≤ b.size) : hdrVal b p ≠ 1 := by
  cases hb : b.alloc <;> cases p <;> simp [hdrVal, hb] <;> omega

theorem hdrVal_strip (b : Blk) (p : Bool) (h8 : b.size % 8 = 0) :
    hdrVal b p - hdrVal b p % 8 = b.size := by
  cases hb : b.alloc <;> cases p <;> simp [hdrVal, hb] <;> omega

theorem hdrVal_mod_two (b : Blk) (p : Bool) (h8 : b.size % 8 = 0) :
    hdrVal b p % 2 = if b.alloc then 1 else 0 := by
  cases hb : b.alloc <;> cases p <;> simp [hdrVal, hb] <;> omega

theorem hdrVal_land_one (b : Blk) (p : Bool) (hs : 8 ≤ b.size) (h8 : b.size % 8 = 0) :
    Int.land (hdrVal b p) 1 = if b.alloc then 1 else 0 := by
  rw [int_land_one _ (hdrVal_nonneg b p hs), hdrVal_mod_two b p h8]

theorem hdrVal_land_two (b : Blk) (p : Bool) (hs : 8 ≤ b.size) (h8 : b.size % 8 = 0) :
    Int.land (hdrVal b p) 2 = if p then 2 else 0 := by
  rw [int_land_two _ (hdrVal_nonneg b p hs)]
  cases hb : b.alloc <;> cases p <;> simp [hdrVal, hb] <;> omega

/-! ### Block list arithmetic -/

theorem sumSizes_append (xs ys : List Blk) :
    sumSizes (xs ++ ys) = sumSizes xs + sumSizes ys := by
  induction xs with
  | nil => simp [sumSizes]
  | cons b bs ih => simp [sumSizes, ih]; ring

theorem WFL_cons {b : Blk} {bs : List Blk} :
    WFL (b :: bs) ↔ (8 ≤ b.size ∧ b.size % 8 = 0) ∧ WFL bs := by
  constructor
  · intro h
    exact ⟨h b (List.mem_cons_self b bs), fun x hx => h x (List.mem_cons_of_mem b hx)⟩
  · rintro ⟨hb, hbs⟩ x hx
    rcases List.mem_cons.mp hx with rfl | hx
    · exact hb
    · exact hbs x hx

theorem WFL_append {xs ys : List Blk} :
    WFL (xs ++ ys) ↔ WFL xs ∧ WFL ys := by
  constructor
  · intro h
    exact ⟨fun x hx => h x (List.mem_append_left _ hx),
           fun x hx => h x (List.mem_append_right _ hx)⟩
  · rintro ⟨h1, h2⟩ x hx
    rcases List.mem_append.mp hx with hx | hx
    · exact h1 x hx
    · exact h2 x hx

theorem sumSizes_nonneg {bl : List Blk} (h : WFL bl) : 0 ≤ sumSizes bl := by
  induction bl with
  | nil => simp [sumSizes]
  | cons b bs ih =>
    rw [WFL_cons] at h
    have := ih h.2
    simp [sumSizes]
    omega

theorem sumSizes_mod8 {bl : List Blk} (h : WFL bl) : sumSizes bl % 8 = 0 := by
  induction bl with
  | nil => simp [sumSizes]
  | cons b bs ih =>
    rw [WFL_cons] at h
    have := ih h.2
    have := h.1.2
    simp [sumSizes]
    omega

theorem length_le_sumSizes {bl : List Blk} (h : WFL bl) :
    8 * (bl.length : Int) ≤ sumSizes bl := by
  induction bl with
  | nil => simp [sumSizes]
  | cons b bs ih =>
    rw [WFL_cons] at h
    have := ih h.2
    have := h.1.1
    simp [sumSizes, List.length_cons]
    omega

/-! ### Transfer lemmas: block-list facts only read a bounded window -/

theorem SegAt_mono {h h2 : Heap} {bl : List Blk} {p : Bool} {off : Int} (hw : WFL bl)
    (hag : ∀ o, off ≤ o → o < off + sumSizes bl → h2.read o = h.read o) :
    SegAt h bl p off → SegAt h2 bl p off := by
  induction bl generalizing p off with
  | nil => intro _; trivial
  | cons b bs ih =>
    rw [WFL_cons] at hw
    have hs8 := hw.1.1
    have hsum := sumSizes_nonneg hw.2
    rintro ⟨h1, h2f, h3⟩
    refine ⟨?_, ?_, ?_⟩
    · rw [hag off le_rfl (by simp [sumSizes]; omega)]; exact h1
    · intro hf
      rw [hag (off + b.size - 4) (by omega) (by simp [sumSizes]; omega)]
      exact h2f hf
    · exact ih hw.2 (fun o ho1 ho2 => hag o (by omega) (by simp [sumSizes] at ho2 ⊢; omega)) h3

theorem BlocksAt_mono {h h2 : Heap} {bl : List Blk} {p : Bool} {off : Int} (hw : WFL bl)
    (hag : ∀ o, off ≤ o → o ≤ off + sumSizes bl → h2.read o = h.read o) :
    BlocksAt h bl p off → BlocksAt h2 bl p off := by
  induction bl generalizing p off with
  | nil =>
    intro h1
    show h2.read off = 1
    rw [hag off le_rfl (by simp [sumSizes])]
    exact h1
  | cons b bs ih =>
    rw [WFL_cons] at hw
    have hs8 := hw.1.1
    have hsum := sumSizes_nonneg hw.2
    rintro ⟨h1, h2f, h3⟩
    refine ⟨?_, ?_, ?_⟩
    · rw [hag off le_rfl (by simp [sumSizes]; omega)]; exact h1
    · intro hf
      rw [hag (off + b.size - 4) (by omega) (by simp [sumSizes]; omega)]
      exact h2f hf
    · exact ih hw.2 (fun o ho1 ho2 => hag o (by omega) (by simp [sumSizes] at ho2 ⊢; omega)) h3

/-! ### Splitting a block list realisation at an interior block -/

theorem lastAlloc_append (p : Bool) (xs ys : List Blk) :
    lastAlloc p (xs ++ ys) = lastAlloc (lastAlloc p xs) ys := by
  induction xs generalizing p with
  | nil => simp [lastAlloc]
  | cons b bs ih => simp [lastAlloc, ih]

theorem lastAlloc_indep (p q : Bool) (b : Blk) (xs : List Blk) :
    lastAlloc p (b :: xs) = lastAlloc q (b :: xs) := by
  simp [lastAlloc]

theorem BlocksAt_append (h : Heap) (pre suf : List Blk) (p : Bool) (off : Int) :
    BlocksAt h (pre ++ suf) p off ↔
      SegAt h pre p off ∧ BlocksAt h suf (lastAlloc p pre) (off + sumSizes pre) := by
  induction pre generalizing p off with
  | nil => simp [SegAt, lastAlloc, sumSizes]
  | cons b bs ih =>
    simp only [List.cons_append, BlocksAt, SegAt, lastAlloc, sumSizes, List.append_eq, ih,
      ← add_assoc, and_assoc]

theorem BlocksAt_lookup {h : Heap} {bl pre suf : List Blk} {b : Blk} {p : Bool} {off : Int}
    (hbl : bl = pre ++ b :: suf) (hb : BlocksAt h bl p off) :
    h.read (off + sumSizes pre) = hdrVal b (lastAlloc p pre) ∧
      (b.alloc = false → h.read (off + sumSizes pre + b.size - 4) = b.size) ∧
      BlocksAt h suf b.alloc (off + sumSizes pre + b.size) := by
  subst hbl
  rw [BlocksAt_append] at hb
  exact hb.2

/-! ### The concrete layout realises its block list -/

theorem BlocksAt_of_layout (bl : List Blk) (hw : WFL bl) :
    ∀ (h : Heap) (p : Bool) (off : Int),
      (∀ o, off ≤ o → h.read o = layoutMem bl p off o) → BlocksAt h bl p off := by
  induction bl with
  | nil =>
    intro h p off hag
    show h.read off = 1
    rw [hag off le_rfl]
    simp [layoutMem]
  | cons b bs ih =>
    intro h p off hag
    rw [WFL_cons] at hw
    have hs8 := hw.1.1
    refine ⟨?_, ?_, ?_⟩
    · rw [hag off le_rfl]; simp [layoutMem]
    · intro hf
      rw [hag (off + b.size - 4) (by omega)]
      rw [layoutMem]
      rw [if_neg (by omega), if_pos ⟨hf, rfl⟩]
    · refine ih hw.2 h b.alloc (off + b.size) (fun o ho => ?_)
      rw [hag o (by omega)]
      rw [layoutMem]
      rw [if_neg (by omega), if_neg ?_]
      rintro ⟨-, rfl⟩
      omega

theorem buildHeap_base (bl : List Blk) (base : Int) : (buildHeap bl base).base = base := rfl

theorem buildHeap_allocsize (bl : List Blk) (base : Int) :
    (buildHeap bl base).allocsize = sumSizes bl := rfl

theorem buildHeap_HeapOf (bl : List Blk) (base : Int) (hw : WFL bl) :
    HeapOf (buildHeap bl base) bl :=
  ⟨BlocksAt_of_layout bl hw _ true 0 (fun _ _ => rfl), rfl⟩

/-! ### The best-fit scan seen at the block-list level -/

theorem bestFitL_nil (need off : Int) (acc : Option (Int × Int)) :
    bestFitL [] need off acc = acc := rfl

theorem bestFitL_cons (b : Blk) (bs : List Blk) (need off : Int) (acc : Option (Int × Int)) :
    bestFitL (b :: bs) need off acc =
      if b.alloc = true ∨ b.size < need then bestFitL bs need (off + b.size) acc
      else bestFitL bs need (off + b.size) (accUpd off b.size acc) := rfl

theorem allocScan_succ (h : Heap) (need : Int) (f : Nat) (cur : Int)
    (acc : Option (Int × Int)) :
    allocScan h need (f+1) cur acc =
      if h.read cur = 1 then some acc
      else if h.read cur % 2 ≠ 0 ∨ h.read cur - h.read cur % 8 < need then
        allocScan h need f (cur + (h.read cur - h.read cur % 8)) acc
      else
        allocScan h need f (cur + (h.read cur - h.read cur % 8))
          (accUpd cur (h.read cur - h.read cur % 8) acc) := rfl

theorem allocScan_sim (h : Heap) (need : Int) :
    ∀ (suf : List Blk) (p : Bool) (off : Int) (acc : Option (Int × Int)) (fuel : Nat),
      BlocksAt h suf p off → WFL suf → suf.length + 1 ≤ fuel →
      allocScan h need fuel off acc = some (bestFitL suf need off acc) := by
  intro suf
  induction suf with
  | nil =>
    intro p off acc fuel hb _ hf
    obtain ⟨f, rfl⟩ : ∃ f, fuel = f + 1 := ⟨fuel - 1, by omega⟩
    have h1 : h.read off = 1 := hb
    rw [allocScan_succ, if_pos h1]
    rfl
  | cons b bs ih =>
    intro p off acc fuel hb hw hf
    obtain ⟨f, rfl⟩ : ∃ f, fuel = f + 1 := ⟨fuel - 1, by omega⟩
    rw [WFL_cons] at hw
    obtain ⟨⟨hs8, hsm⟩, hwbs⟩ := hw
    obtain ⟨hhd, hft, htl⟩ := hb
    have hne : h.read off ≠ 1 := by rw [hhd]; exact hdrVal_ne_one b p hs8
    have hstrip : h.read off - h.read off % 8 = b.size := by
      rw [hhd]; exact hdrVal_strip b p hsm
    have hm2 : h.read off % 2 = if b.alloc then 1 else 0 := by
      rw [hhd]; exact hdrVal_mod_two b p hsm
    have hflen : bs.length + 1 ≤ f := by
      simp only [List.length_cons] at hf; omega
    rw [allocScan_succ, if_neg hne, hstrip, hm2]
    cases hba : b.alloc with
    | true =>
      rw [if_pos (by simp)]
      rw [ih b.alloc (off + b.size) acc f htl hwbs hflen]
      rw [bestFitL_cons, if_pos (Or.inl hba)]
    | false =>
      by_cases hlt : b.size < need
      · rw [if_pos (by simp [hlt])]
        rw [ih b.alloc (off + b.size) acc f htl hwbs hflen]
        rw [bestFitL_cons, if_pos (Or.inr hlt)]
      · rw [if_neg (by simp [hlt])]
        rw [bestFitL_cons, if_neg (by simp [hba, hlt])]
        exact ih b.alloc (off + b.size) _ f htl hwbs hflen

/-! ### Best-fit is the first smallest sufficient candidate -/

theorem candList_nil (need off : Int) : candList [] need off = [] := rfl

theorem candList_cons (b : Blk) (bs : List Blk) (need off : Int) :
    candList (b :: bs) need off =
      (if b.alloc = false ∧ need ≤ b.size then [(off, b.size)] else []) ++
        candList bs need (off + b.size) := rfl

theorem pickBest_cons (acc : Option (Int × Int)) (c : Int × Int) (cs : List (Int × Int)) :
    pickBest acc (c :: cs) = pickBest (accUpd c.1 c.2 acc) cs := rfl

theorem accUpd_some (cur csz : Int) (a : Int × Int) :
    accUpd cur csz (some a) = some (if csz < a.2 then (cur, csz) else a) := by
  obtain ⟨b, bs⟩ := a
  simp only [accUpd]
  split <;> simp

theorem bestFitL_eq_pickBest :
    ∀ (bl : List Blk) (need off : Int) (acc : Option (Int × Int)),
      bestFitL bl need off acc = pickBest acc (candList bl need off) := by
  intro bl
  induction bl with
  | nil => intro need off acc; rfl
  | cons b bs ih =>
    intro need off acc
    rw [bestFitL_cons, candList_cons]
    by_cases hc : b.alloc = true ∨ b.size < need
    · rw [if_pos hc]
      have hg : (if b.alloc = false ∧ need ≤ b.size then [(off, b.size)] else []) = [] := by
        rcases hc with hc | hc
        · exact if_neg (by simp [hc])
        · exact if_neg (by rintro ⟨-, hx⟩; omega)
      rw [hg, List.nil_append, ih]
    · rw [if_neg hc]
      push_neg at hc
      have hg : (if b.alloc = false ∧ need ≤ b.size then [(off, b.size)] else []) =
          [(off, b.size)] := by
        refine if_pos ⟨by simpa using hc.1, by omega⟩
      rw [hg, List.singleton_append, pickBest_cons, ih]

theorem pickBest_is_some :
    ∀ (cs : List (Int × Int)) (a : Int × Int), ∃ r, pickBest (some a) cs = some r := by
  intro cs
  induction cs with
  | nil => intro a; exact ⟨a, rfl⟩
  | cons c cs ih =>
    intro a
    rw [pickBest_cons, accUpd_some]
    exact ih _

theorem pickBest_spec :
    ∀ (cs : List (Int × Int)) (a r : Int × Int),
      pickBest (some a) cs = some r →
      (∀ c ∈ cs, a.1 < c.1) → List.Pairwise (fun x y => x.1 < y.1) cs →
      (r = a ∨ r ∈ cs) ∧ (r.2 ≤ a.2 ∧ (a.2 = r.2 → r.1 ≤ a.1)) ∧
        (∀ c ∈ cs, r.2 ≤ c.2 ∧ (c.2 = r.2 → r.1 ≤ c.1)) := by
  intro cs
  induction cs with
  | nil =>
    intro a r hp _ _
    have : a = r := by simpa [pickBest] using hp
    subst this
    exact ⟨Or.inl rfl, ⟨le_refl _, fun _ => le_refl _⟩, by simp⟩
  | cons c cs ih =>
    intro a r hp hlb hpw
    rw [pickBest_cons, accUpd_some] at hp
    rw [List.pairwise_cons] at hpw
    by_cases hlt : c.2 < a.2
    · rw [if_pos hlt] at hp
      have hc : ((c.1, c.2) : Int × Int) = c := rfl
      rw [hc] at hp
      obtain ⟨hmem, ⟨hle, htie⟩, hall⟩ := ih c r hp hpw.1 hpw.2
      refine ⟨?_, ⟨by omega, by omega⟩, ?_⟩
      · rcases hmem with rfl | hmem
        · exact Or.inr (List.mem_cons_self _ _)
        · exact Or.inr (List.mem_cons_of_mem _ hmem)
      · intro d hd
        rcases List.mem_cons.mp hd with rfl | hd
        · exact ⟨hle, htie⟩
        · exact hall d hd
    · rw [if_neg hlt] at hp
      obtain ⟨hmem, ⟨hle, htie⟩, hall⟩ :=
        ih a r hp (fun d hd => hlb d (List.mem_cons_of_mem _ hd)) hpw.2
      refine ⟨?_, ⟨hle, htie⟩, ?_⟩
      · rcases hmem with rfl | hmem
        · exact Or.inl rfl
        · exact Or.inr (List.mem_cons_of_mem _ hmem)
      · intro d hd
        rcases List.mem_cons.mp hd with rfl | hd
        · refine ⟨by omega, fun hd2 => ?_⟩
          have h1 : r.2 = a.2 := by omega
          have h2 : r.1 ≤ a.1 := htie h1.symm
          have h3 : a.1 < d.1 := hlb d (List.mem_cons_self _ _)
          omega
        · exact hall d hd

theorem candList_lb :
    ∀ (bl : List Blk) (need off : Int), WFL bl → ∀ c ∈ candList bl need off, off ≤ c.1 := by
  intro bl
  induction bl with
  | nil => intro need off _ c hc; simp [candList_nil] at hc
  | cons b bs ih =>
    intro need off hw c hc
    rw [WFL_cons] at hw
    rw [candList_cons] at hc
    rcases List.mem_append.mp hc with hc | hc
    · by_cases hg : b.alloc = false ∧ need ≤ b.size
      · rw [if_pos hg] at hc
        simp at hc
        simp [hc]
      · rw [if_neg hg] at hc
        simp at hc
    · have := ih need (off + b.size) hw.2 c hc
      have := hw.1.1
      omega

theorem candList_pairwise :
    ∀ (bl : List Blk) (need off : Int), WFL bl →
      List.Pairwise (fun x y : Int × Int => x.1 < y.1) (candList bl need off) := by
  intro bl
  induction bl with
  | nil => intro need off _; simp [candList_nil]
  | cons b bs ih =>
    intro need off hw
    rw [WFL_cons] at hw
    rw [candList_cons]
    by_cases hg : b.alloc = false ∧ need ≤ b.size
    · rw [if_pos hg, List.singleton_append, List.pairwise_cons]
      refine ⟨fun c hc => ?_, ih need (off + b.size) hw.2⟩
      have := candList_lb bs need (off + b.size) hw.2 c hc
      have := hw.1.1
      simp only []
      omega
    · rw [if_neg hg, List.nil_append]
      exact ih need (off + b.size) hw.2

theorem candList_mem_iff :
    ∀ (bl : List Blk) (need off o s : Int),
      (o, s) ∈ candList bl need off ↔
        ∃ pre suf, bl = pre ++ (⟨s, false⟩ : Blk) :: suf ∧ o = off + sumSizes pre ∧ need ≤ s := by
  intro bl
  induction bl with
  | nil =>
    intro need off o s
    rw [candList_nil]
    simp only [List.not_mem_nil, false_iff]
    rintro ⟨pre, suf, hbl, -, -⟩
    cases pre <;> simp at hbl
  | cons b bs ih =>
    intro need off o s
    rw [candList_cons]
    constructor
    · intro hc
      rcases List.mem_append.mp hc with hc | hc
      · by_cases hg : b.alloc = false ∧ need ≤ b.size
        · rw [if_pos hg] at hc
          simp only [List.mem_singleton, Prod.mk.injEq] at hc
          obtain ⟨rfl, rfl⟩ := hc
          refine ⟨[], bs, ?_, by simp [sumSizes], hg.2⟩
          obtain ⟨sz, al⟩ := b
          simp at hg
          simp [hg.1]
        · rw [if_neg hg] at hc
          simp at hc
      · obtain ⟨pre, suf, hbl, ho, hs⟩ := (ih need (off + b.size) o s).mp hc
        exact ⟨b :: pre, suf, by rw [hbl]; simp, by simp [sumSizes, ho]; ring, hs⟩
    · rintro ⟨pre, suf, hbl, ho, hs⟩
      cases pre with
      | nil =>
        simp only [List.nil_append] at hbl
        obtain ⟨rfl, rfl⟩ : b = (⟨s, false⟩ : Blk) ∧ bs = suf :=
          ⟨by injection hbl, by injection hbl⟩
        refine List.mem_append_left _ ?_
        rw [if_pos ⟨rfl, hs⟩]
        simp [sumSizes] at ho
        simp [ho]
      | cons b' pre' =>
        have hb : b = b' ∧ bs = pre' ++ (⟨s, false⟩ : Blk) :: suf :=
          ⟨by injection hbl, by injection hbl⟩
        refine List.mem_append_right _ ?_
        refine (ih need (off + b.size) o s).mpr ⟨pre', suf, hb.2, ?_, hs⟩
        rw [ho, hb.1]
        simp [sumSizes]
        ring

theorem bestFitL_spec {bl : List Blk} {need o s : Int} (hw : WFL bl)
    (hbf : bestFitL bl need 0 none = some (o, s)) :
    IsCand bl need o s ∧ ∀ o' s', IsCand bl need o' s' → s ≤ s' ∧ (s' = s → o ≤ o') := by
  rw [bestFitL_eq_pickBest] at hbf
  cases hcs : candList bl need 0 with
  | nil => rw [hcs] at hbf; simp [pickBest] at hbf
  | cons c cs =>
    rw [hcs, pickBest_cons] at hbf
    have hacc : accUpd c.1 c.2 none = some (c.1, c.2) := rfl
    rw [hacc] at hbf
    have hpw := candList_pairwise bl need 0 hw
    rw [hcs, List.pairwise_cons] at hpw
    obtain ⟨hmem, hvs, hall⟩ :=
      pickBest_spec cs (c.1, c.2) (o, s) hbf (by simpa using hpw.1) hpw.2
    have hmem' : (o, s) ∈ candList bl need 0 := by
      rw [hcs]
      rcases hmem with h | h
      · rw [h]; simp
      · exact List.mem_cons_of_mem _ h
    constructor
    · obtain ⟨pre, suf, hbl, ho, hns⟩ := (candList_mem_iff bl need 0 o s).mp hmem'
      exact ⟨pre, suf, hbl, by omega, hns⟩
    · intro o' s' hc'
      obtain ⟨pre', suf', hbl', ho', hns'⟩ := hc'
      have hm2 : (o', s') ∈ candList bl need 0 :=
        (candList_mem_iff bl need 0 o' s').mpr ⟨pre', suf', hbl', by omega, hns'⟩
      rw [hcs] at hm2
      rcases List.mem_cons.mp hm2 with h | h
      · have h1 : o' = c.1 ∧ s' = c.2 := by
          constructor <;> [exact congrArg Prod.fst h; exact congrArg Prod.snd h]
        obtain ⟨rfl, rfl⟩ : o' = c.1 ∧ s' = c.2 := h1
        exact ⟨hvs.1, fun ht => hvs.2 (by simpa using ht)⟩
      · have := hall (o', s') h
        exact ⟨this.1, fun ht => this.2 (by simp [ht])⟩

theorem bestFitL_exists {bl : List Blk} {need : Int} (hw : WFL bl)
    (hex : ∃ o s, IsCand bl need o s) :
    ∃ o s, bestFitL bl need 0 none = some (o, s) := by
  rw [bestFitL_eq_pickBest]
  obtain ⟨o, s, pre, suf, hbl, ho, hns⟩ := hex
  have hmem : (o, s) ∈ candList bl need 0 :=
    (candList_mem_iff bl need 0 o s).mpr ⟨pre, suf, hbl, by omega, hns⟩
  cases hcs : candList bl need 0 with
  | nil => rw [hcs] at hmem; simp at hmem
  | cons c cs =>
    rw [pickBest_cons]
    obtain ⟨r, hr⟩ := pickBest_is_some cs (c.1, c.2)
    have hacc : accUpd c.1 c.2 none = some (c.1, c.2) := rfl
    rw [hacc, hr]
    exact ⟨r.1, r.2, rfl⟩

/-! ### Arithmetic facts about the needed block size -/

theorem needSize_mod8 (n : Int) : needSize n % 8 = 0 := by
  unfold needSize; split <;> omega

theorem needSize_lb (n : Int) : n + 4 ≤ needSize n := by
  unfold needSize; split <;> omega

theorem needSize_ub (n : Int) : needSize n < n + 12 := by
  unfold needSize; split <;> omega

theorem needSize_pos {n : Int} (hn : 0 < n) : 8 ≤ needSize n := by
  have h1 := needSize_lb n
  have h2 := needSize_mod8 n
  omega

/-! ### Reducing `myAlloc` on a realised heap -/

theorem myAlloc_scan {h : Heap} {bl : List Blk} (hf : HeapOf h bl) (hw : WFL bl) (n : Int) :
    allocScan h (needSize n) (h.allocsize.toNat + 1) 0 none =
      some (bestFitL bl (needSize n) 0 none) := by
  refine allocScan_sim h (needSize n) bl true 0 none (h.allocsize.toNat + 1) hf.1 hw ?_
  have h1 := length_le_sumSizes hw
  have h2 : sumSizes bl = h.allocsize := hf.2
  omega

theorem myAlloc_eq (h : Heap) (n : Int) :
    myAlloc h n =
      if n ≤ 0 ∨ h.allocsize < n then some (none, h)
      else
        match allocScan h (needSize n) (h.allocsize.toNat + 1) 0 none with
        | none => none
        | some none => some (none, h)
        | some (some (best, bsz)) =>
          if bsz = needSize n then
            some (some (h.base + best + 4),
              if (h.write best (h.read best + 1)).read (best + bsz) ≠ 1 then
                (h.write best (h.read best + 1)).write (best + bsz)
                  ((h.write best (h.read best + 1)).read (best + bsz) + 2)
              else h.write best (h.read best + 1))
          else
            some (some (h.base + best + 4),
              ((h.write best (h.read best + needSize n - bsz + 1)).write (best + needSize n)
                  (2 + 0 + (bsz - needSize n))).write
                (best + needSize n + bsz - needSize n - 4) (bsz - needSize n)) := rfl

theorem hdrVal_one_add (s : Int) (p : Bool) :
    hdrVal ⟨s, false⟩ p + 1 = hdrVal ⟨s, true⟩ p := by
  cases p <;> simp [hdrVal] <;> omega

theorem hdrVal_two_add (c : Blk) :
    hdrVal c false + 2 = hdrVal c true := by
  cases hc : c.alloc <;> simp [hdrVal, hc] <;> omega

theorem myAlloc_eq_found {h : Heap} {n o s : Int} (hpre : ¬(n ≤ 0 ∨ h.allocsize < n))
    (hscan : allocScan h (needSize n) (h.allocsize.toNat + 1) 0 none = some (some (o, s))) :
    myAlloc h n =
      if s = needSize n then
        some (some (h.base + o + 4),
          if (h.write o (h.read o + 1)).read (o + s) ≠ 1 then
            (h.write o (h.read o + 1)).write (o + s)
              ((h.write o (h.read o + 1)).read (o + s) + 2)
          else h.write o (h.read o + 1))
      else
        some (some (h.base + o + 4),
          ((h.write o (h.read o + needSize n - s + 1)).write (o + needSize n)
              (2 + 0 + (s - needSize n))).write
            (o + needSize n + s - needSize n - 4) (s - needSize n)) := by
  rw [myAlloc_eq, if_neg hpre, hscan]

theorem myAlloc_exact {h : Heap} {bl pre suf : List Blk} {s n o : Int}
    (hf : HeapOf h bl) (hw : WFL bl)
    (hbl : bl = pre ++ (⟨s, false⟩ : Blk) :: suf) (ho : o = sumSizes pre)
    (hbf : bestFitL bl (needSize n) 0 none = some (o, s))
    (hn : 0 < n) (hna : n ≤ h.allocsize) (hex : s = needSize n) :
    ∃ h', myAlloc h n = some (some (h.base + o + 4), h') ∧
      h'.read o = h.read o + 1 ∧
      (∀ x, x ≠ o → x ≠ o + s → h'.read x = h.read x) ∧
      h'.base = h.base ∧ h'.allocsize = h.allocsize ∧
      HeapOf h' (pre ++ (⟨s, true⟩ : Blk) :: suf) := by
  obtain ⟨hba, hsum⟩ := hf
  have hwl : WFL (pre ++ (⟨s, false⟩ : Blk) :: suf) := hbl ▸ hw
  rw [WFL_append, WFL_cons] at hwl
  obtain ⟨hwpre, hmid, hwsuf⟩ := hwl
  have hs8 : (8 : Int) ≤ s := hmid.1
  have hsm : s % 8 = 0 := hmid.2
  have hlook := BlocksAt_lookup hbl hba
  have hrdo : h.read o = hdrVal ⟨s, false⟩ (lastAlloc true pre) := by
    rw [ho]; simpa using hlook.1
  have hsuffix : BlocksAt h suf false (o + s) := by
    have h2 := hlook.2.2
    have he : (0 : Int) + sumSizes pre + (⟨s, false⟩ : Blk).size = o + s := by
      show (0 : Int) + sumSizes pre + s = o + s
      omega
    rwa [he] at h2
  have hseg : SegAt h pre true 0 := by
    have hx := (BlocksAt_append h pre ((⟨s, false⟩ : Blk) :: suf) true 0).mp (hbl ▸ hba)
    exact hx.1
  have hsum' : sumSizes (pre ++ (⟨s, true⟩ : Blk) :: suf) = h.allocsize := by
    rw [← hsum, hbl]
    simp [sumSizes_append, sumSizes]
  have hscan : allocScan h (needSize n) (h.allocsize.toNat + 1) 0 none = some (some (o, s)) := by
    rw [myAlloc_scan ⟨hba, hsum⟩ hw n, hbf]
  have h1rd : ∀ x, x ≠ o → (h.write o (h.read o + 1)).read x = h.read x :=
    fun x hx => read_write_ne h o _ x hx
  have h1o : (h.write o (h.read o + 1)).read o = h.read o + 1 := read_write_self h o _
  cases suf with
  | nil =>
    have hend : h.read (o + s) = 1 := hsuffix
    have h1end : (h.write o (h.read o + 1)).read (o + s) = 1 := by
      rw [h1rd _ (by omega)]; exact hend
    refine ⟨h.write o (h.read o + 1), ?_, h1o, fun x hxo _ => h1rd x hxo, rfl, rfl, ?_, hsum'⟩
    · rw [myAlloc_eq_found (by omega) hscan, if_pos hex, if_neg (by simp [h1end])]
    · rw [BlocksAt_append]
      simp only [zero_add]
      refine ⟨SegAt_mono hwpre (fun x _ hx2 => h1rd x (by omega)) hseg, ?_, ?_, ?_⟩
      · show (h.write o (h.read o + 1)).read (sumSizes pre) = hdrVal ⟨s, true⟩ (lastAlloc true pre)
        rw [← ho, h1o, hrdo, hdrVal_one_add]
      · simp
      · show (h.write o (h.read o + 1)).read (sumSizes pre + s) = 1
        rw [← ho, h1end]
  | cons c cs =>
    obtain ⟨hchd, hcft, hctl⟩ := hsuffix
    have hwcs := WFL_cons.mp hwsuf
    have hcs8 : (8 : Int) ≤ c.size := hwcs.1.1
    have hne1 : h.read (o + s) ≠ 1 := by rw [hchd]; exact hdrVal_ne_one c false hcs8
    have h1ne1 : (h.write o (h.read o + 1)).read (o + s) ≠ 1 := by
      rw [h1rd _ (by omega)]; exact hne1
    have h2rd : ∀ x, x ≠ o → x ≠ o + s →
        ((h.write o (h.read o + 1)).write (o + s)
          ((h.write o (h.read o + 1)).read (o + s) + 2)).read x = h.read x := by
      intro x h1x h2x
      rw [read_write_ne _ _ _ _ h2x, h1rd _ h1x]
    have h2o : ((h.write o (h.read o + 1)).write (o + s)
        ((h.write o (h.read o + 1)).read (o + s) + 2)).read o = h.read o + 1 := by
      rw [read_write_ne _ _ _ _ (by omega), h1o]
    have h2nxt : ((h.write o (h.read o + 1)).write (o + s)
        ((h.write o (h.read o + 1)).read (o + s) + 2)).read (o + s) = h.read (o + s) + 2 := by
      rw [read_write_self, h1rd _ (by omega)]
    refine ⟨_, ?_, h2o, h2rd, rfl, rfl, ?_, hsum'⟩
    · rw [myAlloc_eq_found (by omega) hscan, if_pos hex, if_pos h1ne1]
    · rw [BlocksAt_append]
      simp only [zero_add]
      refine ⟨SegAt_mono hwpre (fun x hx1 hx2 => h2rd x (by omega) (by omega)) hseg, ?_, ?_, ?_⟩
      · show ((h.write o (h.read o + 1)).write (o + s)
            ((h.write o (h.read o + 1)).read (o + s) + 2)).read (sumSizes pre) =
          hdrVal ⟨s, true⟩ (lastAlloc true pre)
        rw [← ho, h2o, hrdo, hdrVal_one_add]
      · simp
      · show BlocksAt ((h.write o (h.read o + 1)).write (o + s)
            ((h.write o (h.read o + 1)).read (o + s) + 2)) (c :: cs) true (sumSizes pre + s)
        refine ⟨?_, ?_, ?_⟩
        · show _ = hdrVal c true
          rw [← ho, h2nxt, hchd, hdrVal_two_add]
        · intro hcf
          rw [show sumSizes pre + s + c.size - 4 = o + s + c.size - 4 by omega]
          rw [h2rd _ (by omega) (by omega)]
          exact hcft hcf
        · rw [show sumSizes pre + s + c.size = o + s + c.size by omega]
          refine BlocksAt_mono hwcs.2 (fun x hx1 hx2 => h2rd x (by omega) (by omega)) hctl

theorem hdrVal_split_new (s sz : Int) (p : Bool) :
    hdrVal ⟨s, false⟩ p + sz - s + 1 = hdrVal ⟨sz, true⟩ p := by
  cases p <;> simp [hdrVal] <;> omega

theorem myAlloc_split {h : Heap} {bl pre suf : List Blk} {s n o : Int}
    (hf : HeapOf h bl) (hw : WFL bl)
    (hbl : bl = pre ++ (⟨s, false⟩ : Blk) :: suf) (ho : o = sumSizes pre)
    (hbf : bestFitL bl (needSize n) 0 none = some (o, s))
    (hn : 0 < n) (hna : n ≤ h.allocsize) (hlt : needSize n < s) :
    ∃ h', myAlloc h n = some (some (h.base + o + 4), h') ∧
      h'.read o = needSize n + 1 + (h.read o - s) ∧
      h'.read (o + needSize n) = 2 + 0 + (s - needSize n) ∧
      h'.read (o + s - 4) = s - needSize n ∧
      (∀ x, x ≠ o → x ≠ o + needSize n → x ≠ o + s - 4 → h'.read x = h.read x) ∧
      h'.base = h.base ∧ h'.allocsize = h.allocsize ∧
      HeapOf h' (pre ++ (⟨needSize n, true⟩ : Blk) :: (⟨s - needSize n, false⟩ : Blk) :: suf) := by
  obtain ⟨hba, hsum⟩ := hf
  have hwl : WFL (pre ++ (⟨s, false⟩ : Blk) :: suf) := hbl ▸ hw
  rw [WFL_append, WFL_cons] at hwl
  obtain ⟨hwpre, hmid, hwsuf⟩ := hwl
  have hs8 : (8 : Int) ≤ s := hmid.1
  have hsm : s % 8 = 0 := hmid.2
  have hsz8 : (8 : Int) ≤ needSize n := needSize_pos hn
  have hszm : needSize n % 8 = 0 := needSize_mod8 n
  have hrem : (8 : Int) ≤ s - needSize n := by omega
  have hlook := BlocksAt_lookup hbl hba
  have hrdo : h.read o = hdrVal ⟨s, false⟩ (lastAlloc true pre) := by
    rw [ho]; simpa using hlook.1
  have hsuffix : BlocksAt h suf false (o + s) := by
    have h2 := hlook.2.2
    have he : (0 : Int) + sumSizes pre + (⟨s, false⟩ : Blk).size = o + s := by
      show (0 : Int) + sumSizes pre + s = o + s
      omega
    rwa [he] at h2
  have hseg : SegAt h pre true 0 := by
    have hx := (BlocksAt_append h pre ((⟨s, false⟩ : Blk) :: suf) true 0).mp (hbl ▸ hba)
    exact hx.1
  have hscan : allocScan h (needSize n) (h.allocsize.toNat + 1) 0 none = some (some (o, s)) := by
    rw [myAlloc_scan ⟨hba, hsum⟩ hw n, hbf]
  -- the three writes of the split path
  have hrd3 : ∀ x, x ≠ o → x ≠ o + needSize n → x ≠ o + needSize n + s - needSize n - 4 →
      (((h.write o (h.read o + needSize n - s + 1)).write (o + needSize n)
          (2 + 0 + (s - needSize n))).write
        (o + needSize n + s - needSize n - 4) (s - needSize n)).read x = h.read x := by
    intro x h1 h2 h3
    rw [read_write_ne _ _ _ _ h3, read_write_ne _ _ _ _ h2, read_write_ne _ _ _ _ h1]
  have hrdA : (((h.write o (h.read o + needSize n - s + 1)).write (o + needSize n)
        (2 + 0 + (s - needSize n))).write
      (o + needSize n + s - needSize n - 4) (s - needSize n)).read o =
      h.read o + needSize n - s + 1 := by
    rw [read_write_ne _ _ _ _ (by omega), read_write_ne _ _ _ _ (by omega), read_write_self]
  have hrdB : (((h.write o (h.read o + needSize n - s + 1)).write (o + needSize n)
        (2 + 0 + (s - needSize n))).write
      (o + needSize n + s - needSize n - 4) (s - needSize n)).read (o + needSize n) =
      2 + 0 + (s - needSize n) := by
    rw [read_write_ne _ _ _ _ (by omega), read_write_self]
  have hrdC : (((h.write o (h.read o + needSize n - s + 1)).write (o + needSize n)
        (2 + 0 + (s - needSize n))).write
      (o + needSize n + s - needSize n - 4) (s - needSize n)).read
      (o + needSize n + s - needSize n - 4) = s - needSize n := read_write_self _ _ _
  have hsum' : sumSizes (pre ++ (⟨needSize n, true⟩ : Blk) ::
      (⟨s - needSize n, false⟩ : Blk) :: suf) = h.allocsize := by
    rw [← hsum, hbl]
    simp [sumSizes_append, sumSizes]
    ring
  refine ⟨((h.write o (h.read o + needSize n - s + 1)).write (o + needSize n)
      (2 + 0 + (s - needSize n))).write (o + needSize n + s - needSize n - 4) (s - needSize n),
    ?_, ?_, ?_, ?_, ?_, rfl, rfl, ?_, hsum'⟩
  · rw [myAlloc_eq_found (by omega) hscan, if_neg (by omega)]
  · rw [hrdA]; omega
  · exact hrdB
  · rw [show o + s - 4 = o + needSize n + s - needSize n - 4 by omega]
    exact hrdC
  · intro x h1 h2 h3
    exact hrd3 x h1 h2 (by omega)
  · rw [BlocksAt_append]
    simp only [zero_add]
    refine ⟨SegAt_mono hwpre (fun x hx1 hx2 => hrd3 x (by omega) (by omega) (by omega)) hseg,
      ?_, ?_, ?_⟩
    · show _ = hdrVal ⟨needSize n, true⟩ (lastAlloc true pre)
      rw [← ho, hrdA, hrdo, hdrVal_split_new]
    · simp
    · show BlocksAt _ ((⟨s - needSize n, false⟩ : Blk) :: suf) true (sumSizes pre + needSize n)
      refine ⟨?_, ?_, ?_⟩
      · show _ = hdrVal ⟨s - needSize n, false⟩ true
        rw [← ho, hrdB]
        simp [hdrVal]
        omega
      · intro hcf
        show (((h.write o (h.read o + needSize n - s + 1)).write (o + needSize n)
            (2 + 0 + (s - needSize n))).write
          (o + needSize n + s - needSize n - 4) (s - needSize n)).read
          (sumSizes pre + needSize n + (s - needSize n) - 4) = s - needSize n
        rw [show sumSizes pre + needSize n + (s - needSize n) - 4 =
          o + needSize n + s - needSize n - 4 by omega]
        exact hrdC
      · show BlocksAt _ suf false (sumSizes pre + needSize n + (s - needSize n))
        rw [show sumSizes pre + needSize n + (s - needSize n) = o + s by omega]
        refine BlocksAt_mono hwsuf (fun x hx1 hx2 => hrd3 x (by omega) (by omega) (by omega))
          hsuffix

theorem myAlloc_fail_pre {h : Heap} {n : Int} (hp : n ≤ 0 ∨ h.allocsize < n) :
    myAlloc h n = some (none, h) := by
  rw [myAlloc_eq, if_pos hp]

theorem myAlloc_nofit {h : Heap} {bl : List Blk} {n : Int} (hf : HeapOf h bl) (hw : WFL bl)
    (hn : 0 < n) (hna : n ≤ h.allocsize)
    (hbf : bestFitL bl (needSize n) 0 none = none) :
    myAlloc h n = some (none, h) := by
  rw [myAlloc_eq, if_neg (by omega), myAlloc_scan hf hw n, hbf]

theorem IsCand_decomp {bl : List Blk} {need o s : Int} (hw : WFL bl) (hc : IsCand bl need o s) :
    ∃ pre suf, bl = pre ++ (⟨s, false⟩ : Blk) :: suf ∧ o = sumSizes pre ∧ need ≤ s ∧
      0 ≤ o ∧ o % 8 = 0 ∧ 8 ≤ s ∧ s % 8 = 0 ∧ o + s ≤ sumSizes bl := by
  obtain ⟨pre, suf, hbl, ho, hns⟩ := hc
  have hwl : WFL (pre ++ (⟨s, false⟩ : Blk) :: suf) := hbl ▸ hw
  rw [WFL_append, WFL_cons] at hwl
  obtain ⟨hwpre, hmid, hwsuf⟩ := hwl
  have hs8 : (8 : Int) ≤ s := hmid.1
  have hsm : s % 8 = 0 := hmid.2
  have h0 : 0 ≤ sumSizes pre := sumSizes_nonneg hwpre
  have h8 : sumSizes pre % 8 = 0 := sumSizes_mod8 hwpre
  have hsuf0 : 0 ≤ sumSizes suf := sumSizes_nonneg hwsuf
  have htot : sumSizes bl = sumSizes pre + s + sumSizes suf := by
    rw [hbl, sumSizes_append]
    simp [sumSizes]
    ring
  exact ⟨pre, suf, hbl, ho, hns, by omega, by omega, hs8, hsm, by omega⟩

theorem myAlloc_success_inv {h : Heap} {bl : List Blk} {n p : Int} {h' : Heap}
    (hf : HeapOf h bl) (hw : WFL bl)
    (hr : myAlloc h n = some (some p, h')) :
    0 < n ∧ n ≤ h.allocsize ∧
      ∃ o s, bestFitL bl (needSize n) 0 none = some (o, s) ∧ p = h.base + o + 4 := by
  by_cases hp : n ≤ 0 ∨ h.allocsize < n
  · rw [myAlloc_fail_pre hp] at hr
    simp at hr
  · push_neg at hp
    cases hbfv : bestFitL bl (needSize n) 0 none with
    | none =>
      rw [myAlloc_nofit hf hw (by omega) (by omega) hbfv] at hr
      simp at hr
    | some os =>
      obtain ⟨o, s⟩ := os
      have hscan : allocScan h (needSize n) (h.allocsize.toNat + 1) 0 none =
          some (some (o, s)) := by
        rw [myAlloc_scan hf hw n, hbfv]
      rw [myAlloc_eq_found (by omega) hscan] at hr
      refine ⟨by omega, by omega, o, s, rfl, ?_⟩
      by_cases hex : s = needSize n
      · rw [if_pos hex] at hr
        have h1 := Option.some.inj hr
        have h2 := congrArg Prod.fst h1
        simp only [] at h2
        exact (Option.some.inj h2).symm
      · rw [if_neg hex] at hr
        have h1 := Option.some.inj hr
        have h2 := congrArg Prod.fst h1
        simp only [] at h2
        exact (Option.some.inj h2).symm

theorem myAlloc_cases {h : Heap} {bl : List Blk} (hf : HeapOf h bl) (hw : WFL bl)
    {n : Int} {r : Option Int} {h' : Heap} (hr : myAlloc h n = some (r, h')) :
    (r = none ∧ h' = h) ∨
      ∃ bl', HeapOf h' bl' ∧ WFL bl' ∧ sumSizes bl' = sumSizes bl ∧
        h'.base = h.base ∧ h'.allocsize = h.allocsize := by
  by_cases hp : n ≤ 0 ∨ h.allocsize < n
  · rw [myAlloc_fail_pre hp] at hr
    have h1 := Option.some.inj hr
    exact Or.inl ⟨(congrArg Prod.fst h1).symm, (congrArg Prod.snd h1).symm⟩
  · push_neg at hp
    cases hbfv : bestFitL bl (needSize n) 0 none with
    | none =>
      rw [myAlloc_nofit hf hw (by omega) (by omega) hbfv] at hr
      have h1 := Option.some.inj hr
      exact Or.inl ⟨(congrArg Prod.fst h1).symm, (congrArg Prod.snd h1).symm⟩
    | some os =>
      obtain ⟨o, s⟩ := os
      obtain ⟨hcand, -⟩ := bestFitL_spec hw hbfv
      obtain ⟨pre, suf, hbl, ho, hns, -, -, hs8, hsm, -⟩ := IsCand_decomp hw hcand
      have hwl : WFL (pre ++ (⟨s, false⟩ : Blk) :: suf) := hbl ▸ hw
      rw [WFL_append, WFL_cons] at hwl
      obtain ⟨hwpre, -, hwsuf⟩ := hwl
      right
      by_cases hex : s = needSize n
      · obtain ⟨h2, heq, -, -, hb, ha, hof⟩ :=
          myAlloc_exact hf hw hbl ho hbfv (by omega) (by omega) hex
        rw [heq] at hr
        have h1 := Option.some.inj hr
        have hh : h2 = h' := congrArg Prod.snd h1
        subst hh
        refine ⟨pre ++ (⟨s, true⟩ : Blk) :: suf, hof, ?_, ?_, hb, ha⟩
        · rw [WFL_append, WFL_cons]
          exact ⟨hwpre, ⟨hs8, hsm⟩, hwsuf⟩
        · rw [hbl]
          simp [sumSizes_append, sumSizes]
      · have hlt : needSize n < s := by
          rcases lt_or_eq_of_le hns with hlt | heq2
          · exact hlt
          · exact absurd heq2.symm hex
        obtain ⟨h2, heq, -, -, -, -, hb, ha, hof⟩ :=
          myAlloc_split hf hw hbl ho hbfv (by omega) (by omega) hlt
        rw [heq] at hr
        have h1 := Option.some.inj hr
        have hh : h2 = h' := congrArg Prod.snd h1
        subst hh
        refine ⟨_, hof, ?_, ?_, hb, ha⟩
        · rw [WFL_append, WFL_cons, WFL_cons]
          have hn8 : (8:Int) ≤ needSize n := needSize_pos (show (0:Int) < n by omega)
          have hnm : needSize n % 8 = 0 := needSize_mod8 n
          exact ⟨hwpre, ⟨hn8, hnm⟩,
            ⟨show (8:Int) ≤ s - needSize n by omega, show (s - needSize n) % 8 = 0 by omega⟩,
            hwsuf⟩
        · rw [hbl]
          simp [sumSizes_append, sumSizes]
          ring

/-! ### Reducing `myFree` -/

theorem myFree_expand (h : Heap) (ptr : Int) :
    myFree h ptr =
      if ptr = 0 then (-1, h)
      else if ptr % 8 ≠ 0 then (-1, h)
      else if ptr < h.base ∨ h.base + h.allocsize < ptr then (-1, h)
      else if h.read (ptr - h.base - 4) % 2 = 0 then (-1, h)
      else
        (0,
          (if (h.write (ptr - h.base - 4) (h.read (ptr - h.base - 4) - 1)).read
                (ptr - h.base - 4 +
                  ((h.write (ptr - h.base - 4) (h.read (ptr - h.base - 4) - 1)).read
                      (ptr - h.base - 4) -
                    (h.write (ptr - h.base - 4) (h.read (ptr - h.base - 4) - 1)).read
                        (ptr - h.base - 4) % 8)) ≠ 1 then
            (h.write (ptr - h.base - 4) (h.read (ptr - h.base - 4) - 1)).write
              (ptr - h.base - 4 +
                ((h.write (ptr - h.base - 4) (h.read (ptr - h.base - 4) - 1)).read
                    (ptr - h.base - 4) -
                  (h.write (ptr - h.base - 4) (h.read (ptr - h.base - 4) - 1)).read
                      (ptr - h.base - 4) % 8))
              ((h.write (ptr - h.base - 4) (h.read (ptr - h.base - 4) - 1)).read
                  (ptr - h.base - 4 +
                    ((h.write (ptr - h.base - 4) (h.read (ptr - h.base - 4) - 1)).read
                        (ptr - h.base - 4) -
                      (h.write (ptr - h.base - 4) (h.read (ptr - h.base - 4) - 1)).read
                          (ptr - h.base - 4) % 8)) -
                Int.land
                  ((h.write (ptr - h.base - 4) (h.read (ptr - h.base - 4) - 1)).read
                    (ptr - h.base - 4 +
                      ((h.write (ptr - h.base - 4) (h.read (ptr - h.base - 4) - 1)).read
                          (ptr - h.base - 4) -
                        (h.write (ptr - h.base - 4) (h.read (ptr - h.base - 4) - 1)).read
                            (ptr - h.base - 4) % 8))) 2)
          else h.write (ptr - h.base - 4) (h.read (ptr - h.base - 4) - 1)).write
            (ptr - h.base - 4 +
              ((h.write (ptr - h.base - 4) (h.read (ptr - h.base - 4) - 1)).read
                  (ptr - h.base - 4) -
                (h.write (ptr - h.base - 4) (h.read (ptr - h.base - 4) - 1)).read
                    (ptr - h.base - 4) % 8) - 4)
            ((h.write (ptr - h.base - 4) (h.read (ptr - h.base - 4) - 1)).read
                (ptr - h.base - 4) -
              (h.write (ptr - h.base - 4) (h.read (ptr - h.base - 4) - 1)).read
                  (ptr - h.base - 4) % 8)) := rfl

theorem hdrVal_sub_one (s : Int) (p : Bool) :
    hdrVal ⟨s, true⟩ p - 1 = hdrVal ⟨s, false⟩ p := by
  cases p <;> simp [hdrVal] <;> omega

theorem hdrVal_sub_two (c : Blk) : hdrVal c true - 2 = hdrVal c false := by
  rw [← hdrVal_two_add]; ring

theorem hdrVal_land_two_true (c : Blk) (hs : 8 ≤ c.size) (h8 : c.size % 8 = 0) :
    Int.land (hdrVal c true) 2 = 2 := by
  rw [hdrVal_land_two c true hs h8]; simp

theorem myFree_sim {h : Heap} {bl pre suf : List Blk} {s : Int}
    (hf : HeapOf h bl) (hw : WFL bl)
    (hbl : bl = pre ++ (⟨s, true⟩ : Blk) :: suf)
    (hbase : 0 < h.base) (hb8 : h.base % 8 = 4) :
    ∃ h', myFree h (h.base + sumSizes pre + 4) = (0, h') ∧
      h'.read (sumSizes pre) = h.read (sumSizes pre) - 1 ∧
      (suf = [] → h'.read (sumSizes pre + s) = h.read (sumSizes pre + s)) ∧
      (suf ≠ [] → h'.read (sumSizes pre + s) = h.read (sumSizes pre + s) - 2) ∧
      h'.read (sumSizes pre + s - 4) = s ∧
      (∀ x, x ≠ sumSizes pre → x ≠ sumSizes pre + s → x ≠ sumSizes pre + s - 4 →
        h'.read x = h.read x) ∧
      h'.base = h.base ∧ h'.allocsize = h.allocsize ∧
      HeapOf h' (pre ++ (⟨s, false⟩ : Blk) :: suf) := by
  obtain ⟨hba, hsum⟩ := hf
  have hwl : WFL (pre ++ (⟨s, true⟩ : Blk) :: suf) := hbl ▸ hw
  rw [WFL_append, WFL_cons] at hwl
  obtain ⟨hwpre, hmid, hwsuf⟩ := hwl
  have hs8 : (8 : Int) ≤ s := hmid.1
  have hsm : s % 8 = 0 := hmid.2
  have hpre0 : 0 ≤ sumSizes pre := sumSizes_nonneg hwpre
  have hpre8 : sumSizes pre % 8 = 0 := sumSizes_mod8 hwpre
  have hsuf0 : 0 ≤ sumSizes suf := sumSizes_nonneg hwsuf
  have htot : sumSizes bl = sumSizes pre + s + sumSizes suf := by
    rw [hbl, sumSizes_append]; simp [sumSizes]; ring
  have hlook := BlocksAt_lookup hbl hba
  have hrdo : h.read (sumSizes pre) = hdrVal ⟨s, true⟩ (lastAlloc true pre) := by
    simpa using hlook.1
  have hsuffix : BlocksAt h suf true (sumSizes pre + s) := by
    have h2 := hlook.2.2
    have he : (0 : Int) + sumSizes pre + (⟨s, true⟩ : Blk).size = sumSizes pre + s := by
      show (0 : Int) + sumSizes pre + s = sumSizes pre + s
      omega
    rwa [he] at h2
  have hseg : SegAt h pre true 0 := by
    have hx := (BlocksAt_append h pre ((⟨s, true⟩ : Blk) :: suf) true 0).mp (hbl ▸ hba)
    exact hx.1
  have hsum' : sumSizes (pre ++ (⟨s, false⟩ : Blk) :: suf) = h.allocsize := by
    rw [← hsum, hbl]; simp [sumSizes_append, sumSizes]
  have hkey : h.base + sumSizes pre + 4 - h.base - 4 = sumSizes pre := by ring
  have hc1 : ¬(h.base + sumSizes pre + 4 = 0) := by omega
  have hc2 : ¬((h.base + sumSizes pre + 4) % 8 ≠ 0) := by
    simp only [not_not]
    omega
  have hc3 : ¬(h.base + sumSizes pre + 4 < h.base ∨
      h.base + h.allocsize < h.base + sumSizes pre + 4) := by
    push_neg
    constructor <;> omega
  have hc4 : ¬(h.read (h.base + sumSizes pre + 4 - h.base - 4) % 2 = 0) := by
    rw [hkey, hrdo, hdrVal_mod_two _ _ hsm]
    simp
  rw [myFree_expand, if_neg hc1, if_neg hc2, if_neg hc3, if_neg hc4, hkey, read_write_self,
    hrdo, hdrVal_sub_one, hdrVal_strip _ _ hsm,
    read_write_ne h (sumSizes pre) (hdrVal ⟨s, false⟩ (lastAlloc true pre))
      (sumSizes pre + s) (by omega)]
  cases suf with
  | nil =>
    have hend : h.read (sumSizes pre + s) = 1 := hsuffix
    rw [hend, if_neg (by simp)]
    refine ⟨_, rfl, ?_, ?_, ?_, ?_, ?_, rfl, rfl, ?_, hsum'⟩
    · simp only [read_write]
      rw [if_neg (by omega)]
      simp
    · intro _
      simp only [read_write]
      rw [if_neg (by omega), if_neg (by omega)]
      exact hend
    · intro hne
      exact absurd rfl hne
    · simp only [read_write]
      simp
    · intro x hx1 hx2 hx3
      simp only [read_write]
      rw [if_neg hx3, if_neg hx1]
    · rw [BlocksAt_append]
      simp only [zero_add]
      refine ⟨SegAt_mono hwpre (fun x hx1 hx2 => by
          simp only [read_write]
          rw [if_neg (by omega), if_neg (by omega)]) hseg,
        ?_, ?_, ?_⟩
      · show _ = hdrVal ⟨s, false⟩ (lastAlloc true pre)
        simp only [read_write]
        rw [if_neg (by omega)]
        simp
      · intro _
        show ((h.write (sumSizes pre) (hdrVal ⟨s, false⟩ (lastAlloc true pre))).write
            (sumSizes pre + s - 4) s).read (sumSizes pre + s - 4) = s
        simp only [read_write]
        simp
      · show ((h.write (sumSizes pre) (hdrVal ⟨s, false⟩ (lastAlloc true pre))).write
            (sumSizes pre + s - 4) s).read (sumSizes pre + s) = 1
        simp only [read_write]
        rw [if_neg (by omega), if_neg (by omega), hend]
  | cons c cs =>
    obtain ⟨hchd, hcft, hctl⟩ := hsuffix
    have hwcs := WFL_cons.mp hwsuf
    have hc8 : (8 : Int) ≤ c.size := hwcs.1.1
    have hcm : c.size % 8 = 0 := hwcs.1.2
    rw [hchd, if_pos (hdrVal_ne_one c true hc8), hdrVal_land_two_true c hc8 hcm,
      hdrVal_sub_two c]
    refine ⟨_, rfl, ?_, ?_, ?_, ?_, ?_, rfl, rfl, ?_, hsum'⟩
    · simp only [read_write]
      rw [if_neg (by omega), if_neg (by omega)]
      simp
    · intro hne
      simp at hne
    · intro _
      simp only [read_write]
      rw [if_neg (by omega)]
      simp
    · simp only [read_write]
      simp
    · intro x hx1 hx2 hx3
      simp only [read_write]
      rw [if_neg hx3, if_neg hx2, if_neg hx1]
    · rw [BlocksAt_append]
      simp only [zero_add]
      refine ⟨SegAt_mono hwpre (fun x hx1 hx2 => by
          simp only [read_write]
          rw [if_neg (by omega), if_neg (by omega), if_neg (by omega)]) hseg,
        ?_, ?_, ?_⟩
      · show _ = hdrVal ⟨s, false⟩ (lastAlloc true pre)
        simp only [read_write]
        rw [if_neg (by omega), if_neg (by omega)]
        simp
      · intro _
        show (((h.write (sumSizes pre) (hdrVal ⟨s, false⟩ (lastAlloc true pre))).write
              (sumSizes pre + s) (hdrVal c false)).write
            (sumSizes pre + s - 4) s).read (sumSizes pre + s - 4) = s
        simp only [read_write]
        simp
      · show BlocksAt _ (c :: cs) false (sumSizes pre + s)
        refine ⟨?_, ?_, ?_⟩
        · show _ = hdrVal c false
          simp only [read_write]
          rw [if_neg (by omega)]
          simp
        · intro hcf
          show (((h.write (sumSizes pre) (hdrVal ⟨s, false⟩ (lastAlloc true pre))).write
                (sumSizes pre + s) (hdrVal c false)).write
              (sumSizes pre + s - 4) s).read (sumSizes pre + s + c.size - 4) = c.size
          simp only [read_write]
          rw [if_neg (by omega), if_neg (by omega), if_neg (by omega)]
          exact hcft hcf
        · refine BlocksAt_mono hwcs.2 (fun x hx1 hx2 => by
            simp only [read_write]
            rw [if_neg (by omega), if_neg (by omega), if_neg (by omega)]) hctl

/-! ### Reducing the coalesce loop -/

theorem coalesceLoop_succ (f : Nat) (h : Heap) (ptr : Int) :
    coalesceLoop (f+1) h ptr =
      if h.read ptr = 1 then some h
      else if Int.land (h.read ptr) 1 ≠ 0 then
        coalesceLoop f h (ptr + (h.read ptr - h.read ptr % 8))
      else if Int.land (h.read (ptr + (h.read ptr - h.read ptr % 8))) 1 ≠ 0 then
        coalesceLoop f h (ptr + (h.read ptr - h.read ptr % 8))
      else
        coalesceLoop f
          ((h.write ptr (h.read ptr +
              (h.read (ptr + (h.read ptr - h.read ptr % 8)) -
                h.read (ptr + (h.read ptr - h.read ptr % 8)) % 8))).write
            (ptr + (h.read ptr - h.read ptr % 8) +
              (h.read (ptr + (h.read ptr - h.read ptr % 8)) -
                h.read (ptr + (h.read ptr - h.read ptr % 8)) % 8) - 4)
            ((h.write ptr (h.read ptr +
                (h.read (ptr + (h.read ptr - h.read ptr % 8)) -
                  h.read (ptr + (h.read ptr - h.read ptr % 8)) % 8))).read
              (ptr + (h.read ptr - h.read ptr % 8) +
                (h.read (ptr + (h.read ptr - h.read ptr % 8)) -
                  h.read (ptr + (h.read ptr - h.read ptr % 8)) % 8) - 4) +
              (h.read ptr - h.read ptr % 8)))
          ptr := rfl

theorem coalRec_none_nil : coalRec none [] = [] := rfl

theorem coalRec_some_nil (s : Int) : coalRec (some s) [] = [⟨s, false⟩] := rfl

theorem coalRec_none_cons (b : Blk) (bs : List Blk) :
    coalRec none (b :: bs) =
      if b.alloc then b :: coalRec none bs else coalRec (some b.size) bs := rfl

theorem coalRec_some_cons (s : Int) (b : Blk) (bs : List Blk) :
    coalRec (some s) (b :: bs) =
      if b.alloc then ⟨s, false⟩ :: b :: coalRec none bs
      else coalRec (some (s + b.size)) bs := rfl

theorem hdrVal_add_free (a c : Int) (p : Bool) :
    hdrVal ⟨a, false⟩ p + c = hdrVal ⟨a + c, false⟩ p := by
  cases p <;> simp [hdrVal] <;> omega

theorem hdrVal_free_false (c : Int) : hdrVal ⟨c, false⟩ false = c := by
  simp [hdrVal]

theorem coalesceLoop_sim :
    ∀ (fuel : Nat) (suf : List Blk) (h : Heap) (p : Bool) (off : Int),
      BlocksAt h suf p off → WFL suf → 2 * suf.length + 1 ≤ fuel →
      ∃ h', coalesceLoop fuel h off = some h' ∧
        BlocksAt h' (coalesceL suf) p off ∧
        (∀ x, x < off → h'.read x = h.read x) ∧
        h'.base = h.base ∧ h'.allocsize = h.allocsize := by
  intro fuel
  induction fuel with
  | zero =>
    intro suf h p off _ _ hfl
    exact absurd hfl (by omega)
  | succ f ih =>
    intro suf h p off hb hw hfl
    cases suf with
    | nil =>
      have hb1 : h.read off = 1 := hb
      refine ⟨h, ?_, hb, fun x _ => rfl, rfl, rfl⟩
      rw [coalesceLoop_succ, if_pos hb1]
    | cons b bs =>
      obtain ⟨hhd, hftr, htl⟩ := hb
      rw [WFL_cons] at hw
      obtain ⟨⟨hs8, hsm⟩, hwbs⟩ := hw
      have hne1 : h.read off ≠ 1 := by rw [hhd]; exact hdrVal_ne_one b p hs8
      have hstrip : h.read off - h.read off % 8 = b.size := by
        rw [hhd]; exact hdrVal_strip b p hsm
      have hl1 : Int.land (h.read off) 1 = if b.alloc then 1 else 0 := by
        rw [hhd]; exact hdrVal_land_one b p hs8 hsm
      rw [coalesceLoop_succ, if_neg hne1, hstrip, hl1]
      cases hba : b.alloc with
      | true =>
        rw [if_pos (by simp)]
        obtain ⟨h', heq, hb', hlow, hbase, halloc⟩ :=
          ih bs h b.alloc (off + b.size) htl hwbs (by simp at hfl ⊢; omega)
        refine ⟨h', heq, ?_, fun x hx => hlow x (by omega), hbase, halloc⟩
        rw [show coalesceL (b :: bs) = b :: coalesceL bs by
          simp [coalesceL, coalRec_none_cons, hba]]
        refine ⟨?_, ?_, ?_⟩
        · rw [hlow off (by omega), hhd]
        · intro hf; rw [hba] at hf; exact absurd hf (by simp)
        · exact hb'
      | false =>
        rw [if_neg (by simp)]
        obtain ⟨bsz, bal⟩ := b
        simp only [] at hba
        subst hba
        have hbs8 : (8 : Int) ≤ bsz := hs8
        have hbsm : bsz % 8 = 0 := hsm
        cases bs with
        | nil =>
          have hend : h.read (off + (⟨bsz, false⟩ : Blk).size) = 1 := htl
          have hend' : h.read (off + bsz) = 1 := hend
          rw [show (⟨bsz, false⟩ : Blk).size = bsz from rfl] at *
          rw [hend', if_pos (by decide)]
          obtain ⟨h', heq, hb', hlow, hbase, halloc⟩ :=
            ih [] h false (off + bsz) hend' (by intro x hx; simp at hx) (by simp at hfl ⊢; omega)
          refine ⟨h', heq, ?_, fun x hx => hlow x (by omega), hbase, halloc⟩
          rw [show coalesceL [(⟨bsz, false⟩ : Blk)] = [(⟨bsz, false⟩ : Blk)] from rfl]
          refine ⟨?_, ?_, ?_⟩
          · rw [hlow off (by omega), hhd]
          · intro _
            show h'.read (off + bsz - 4) = bsz
            rw [hlow _ (by omega)]
            exact hftr rfl
          · show h'.read (off + bsz) = 1
            exact hb'
        | cons c cs =>
          obtain ⟨hchd, hcft, hctl⟩ := htl
          rw [WFL_cons] at hwbs
          obtain ⟨⟨hc8, hcm⟩, hwcs⟩ := hwbs
          have hchd' : h.read (off + bsz) = hdrVal c false := hchd
          have hlc : Int.land (h.read (off + bsz)) 1 = if c.alloc then 1 else 0 := by
            rw [hchd']; exact hdrVal_land_one c false hc8 hcm
          rw [show (⟨bsz, false⟩ : Blk).size = bsz from rfl] at *
          rw [hlc]
          cases hca : c.alloc with
          | true =>
            rw [if_pos (by simp)]
            obtain ⟨h', heq, hb', hlow, hbase, halloc⟩ :=
              ih (c :: cs) h false (off + bsz) ⟨hchd', hcft, hctl⟩
                (WFL_cons.mpr ⟨⟨hc8, hcm⟩, hwcs⟩) (by simp at hfl ⊢; omega)
            refine ⟨h', heq, ?_, fun x hx => hlow x (by omega), hbase, halloc⟩
            rw [show coalesceL ((⟨bsz, false⟩ : Blk) :: c :: cs) =
                (⟨bsz, false⟩ : Blk) :: coalesceL (c :: cs) by
              simp [coalesceL, coalRec_none_cons, coalRec_some_cons, hca]]
            refine ⟨?_, ?_, ?_⟩
            · rw [hlow off (by omega), hhd]
            · intro _
              show h'.read (off + bsz - 4) = bsz
              rw [hlow _ (by omega)]
              exact hftr rfl
            · exact hb'
          | false =>
            rw [if_neg (by simp)]
            obtain ⟨csz, cal⟩ := c
            simp only [] at hca
            subst hca
            have hcs8 : (8 : Int) ≤ csz := hc8
            have hcsm : csz % 8 = 0 := hcm
            have hcval : h.read (off + bsz) = csz := by
              rw [hchd', hdrVal_free_false]
            have hcftr : h.read (off + bsz + csz - 4) = csz := by
              have := hcft rfl
              simpa using this
            rw [hcval, show csz - csz % 8 = csz by omega]
            -- the merged heap
            have hw1rd : ∀ x, x ≠ off →
                (h.write off (h.read off + csz)).read x = h.read x :=
              fun x hx => read_write_ne _ _ _ _ hx
            have hposrd : (h.write off (h.read off + csz)).read (off + bsz + csz - 4) = csz := by
              rw [hw1rd _ (by omega), hcftr]
            rw [hposrd]
            have hctl' : BlocksAt h cs false (off + bsz + csz) := hctl
            have hb2 : BlocksAt
                ((h.write off (h.read off + csz)).write (off + bsz + csz - 4) (csz + bsz))
                ((⟨bsz + csz, false⟩ : Blk) :: cs) p off := by
              refine ⟨?_, ?_, ?_⟩
              · show _ = hdrVal ⟨bsz + csz, false⟩ p
                simp only [read_write]
                rw [if_neg (by omega)]
                simp [hhd, hdrVal_add_free]
              · intro _
                show ((h.write off (h.read off + csz)).write (off + bsz + csz - 4)
                    (csz + bsz)).read (off + (bsz + csz) - 4) = bsz + csz
                rw [show off + (bsz + csz) - 4 = off + bsz + csz - 4 by ring]
                simp only [read_write]
                simp
                omega
              · show BlocksAt _ cs false (off + (bsz + csz))
                rw [show off + (bsz + csz) = off + bsz + csz by ring]
                refine BlocksAt_mono hwcs (fun x hx1 hx2 => by
                  simp only [read_write]
                  rw [if_neg (by omega), if_neg (by omega)]) hctl'
            obtain ⟨h', heq, hb', hlow, hbase2, halloc2⟩ :=
              ih ((⟨bsz + csz, false⟩ : Blk) :: cs)
                ((h.write off (h.read off + csz)).write (off + bsz + csz - 4) (csz + bsz))
                p off hb2
                (WFL_cons.mpr ⟨⟨by show (8:Int) ≤ bsz + csz; omega,
                  by show (bsz + csz) % 8 = 0; omega⟩, hwcs⟩)
                (by simp at hfl ⊢; omega)
            refine ⟨h', heq, ?_, ?_, hbase2, halloc2⟩
            · have hceq : coalesceL ((⟨bsz, false⟩ : Blk) :: (⟨csz, false⟩ : Blk) :: cs) =
                  coalesceL ((⟨bsz + csz, false⟩ : Blk) :: cs) := by
                simp [coalesceL, coalRec_none_cons, coalRec_some_cons]
              rw [hceq]
              exact hb'
            · intro x hx
              rw [hlow x hx]
              simp only [read_write]
              rw [if_neg (by omega), if_neg (by omega)]

/-- Accumulated size of an open free run (`none` = no open run). -/
def pendSum : Option Int → Int
  | none => 0
  | some s => s

theorem coalRec_sum :
    ∀ (bl : List Blk) (pend : Option Int),
      sumSizes (coalRec pend bl) = pendSum pend + sumSizes bl := by
  intro bl
  induction bl with
  | nil =>
    intro pend
    cases pend <;> simp [coalRec_none_nil, coalRec_some_nil, pendSum, sumSizes]
  | cons b bs ih =>
    intro pend
    cases pend with
    | none =>
      rw [coalRec_none_cons]
      by_cases hba : b.alloc
      · rw [if_pos hba]
        simp [sumSizes, ih none, pendSum]
      · rw [if_neg hba]
        rw [ih (some b.size)]
        simp [sumSizes, pendSum]
    | some s =>
      rw [coalRec_some_cons]
      by_cases hba : b.alloc
      · rw [if_pos hba]
        simp [sumSizes, ih none, pendSum]
        try ring
      · rw [if_neg hba]
        rw [ih (some (s + b.size))]
        simp [sumSizes, pendSum]
        try ring

theorem coalesceL_sum (bl : List Blk) : sumSizes (coalesceL bl) = sumSizes bl := by
  rw [coalesceL, coalRec_sum]
  simp [pendSum]

theorem coalRec_WFL :
    ∀ (bl : List Blk) (pend : Option Int), WFL bl →
      (∀ s, pend = some s → 8 ≤ s ∧ s % 8 = 0) → WFL (coalRec pend bl) := by
  intro bl
  induction bl with
  | nil =>
    intro pend _ hp
    cases pend with
    | none => intro x hx; simp [coalRec_none_nil] at hx
    | some s =>
      intro x hx
      simp [coalRec_some_nil] at hx
      obtain ⟨h1, h2⟩ := hp s rfl
      subst hx
      exact ⟨h1, h2⟩
  | cons b bs ih =>
    intro pend hw hp
    rw [WFL_cons] at hw
    cases pend with
    | none =>
      rw [coalRec_none_cons]
      by_cases hba : b.alloc
      · rw [if_pos hba]
        intro x hx
        rcases List.mem_cons.mp hx with rfl | hx
        · exact hw.1
        · exact ih none hw.2 (by simp) x hx
      · rw [if_neg hba]
        exact ih (some b.size) hw.2 (by
          intro s hs
          injection hs with hs
          subst hs
          exact hw.1)
    | some s =>
      rw [coalRec_some_cons]
      by_cases hba : b.alloc
      · rw [if_pos hba]
        intro x hx
        rcases List.mem_cons.mp hx with rfl | hx
        · obtain ⟨h1, h2⟩ := hp s rfl
          exact ⟨h1, h2⟩
        · rcases List.mem_cons.mp hx with rfl | hx
          · exact hw.1
          · exact ih none hw.2 (by simp) x hx
      · rw [if_neg hba]
        refine ih (some (s + b.size)) hw.2 ?_
        intro t ht
        injection ht with ht
        subst ht
        obtain ⟨h1, h2⟩ := hp s rfl
        have := hw.1
        constructor <;> omega

theorem coalesceL_WFL {bl : List Blk} (hw : WFL bl) : WFL (coalesceL bl) :=
  coalRec_WFL bl none hw (by simp)

theorem coalesce_sim {h : Heap} {bl : List Blk} (hf : HeapOf h bl) (hw : WFL bl) :
    ∃ h', coalesce h = some h' ∧ HeapOf h' (coalesceL bl) ∧
      h'.base = h.base ∧ h'.allocsize = h.allocsize := by
  obtain ⟨hba, hsum⟩ := hf
  have hfuel : 2 * bl.length + 1 ≤ h.allocsize.toNat + 1 := by
    have h1 := length_le_sumSizes hw
    omega
  obtain ⟨h', heq, hb', -, hbase, halloc⟩ :=
    coalesceLoop_sim (h.allocsize.toNat + 1) bl h true 0 hba hw hfuel
  refine ⟨h', heq, ⟨hb', ?_⟩, hbase, halloc⟩
  rw [coalesceL_sum, halloc, hsum]

/-! ### Structure of the coalesced block list -/

theorem coalRec_split_alloc :
    ∀ (pre : List Blk) (pend : Option Int) (b : Blk) (suf : List Blk), b.alloc = true →
      coalRec pend (pre ++ b :: suf) = coalRec pend (pre ++ [b]) ++ coalRec none suf := by
  intro pre
  induction pre with
  | nil =>
    intro pend b suf hba
    cases pend with
    | none => simp [coalRec_none_cons, hba, coalRec_none_nil]
    | some s => simp [coalRec_some_cons, hba, coalRec_none_nil]
  | cons x xs ih =>
    intro pend b suf hba
    cases pend with
    | none =>
      by_cases hx : x.alloc
      · simp only [List.cons_append, coalRec_none_cons, if_pos hx]
        rw [ih none b suf hba]
      · simp only [List.cons_append, coalRec_none_cons, if_neg hx]
        exact ih (some x.size) b suf hba
    | some s =>
      by_cases hx : x.alloc
      · simp only [List.cons_append, coalRec_some_cons, if_pos hx]
        rw [ih none b suf hba]
      · simp only [List.cons_append, coalRec_some_cons, if_neg hx]
        exact ih (some (s + x.size)) b suf hba

theorem coalRec_run :
    ∀ (run : List Blk) (pend : Option Int) (suf : List Blk) (t : Int),
      run ≠ [] → (∀ x ∈ run, x.alloc = false) →
      (suf = [] ∨ ∃ c cs, suf = c :: cs ∧ c.alloc = true) →
      t = pendSum pend + sumSizes run →
      coalRec pend (run ++ suf) = (⟨t, false⟩ : Blk) :: coalRec none suf := by
  intro run
  induction run with
  | nil => intro _ _ _ hne; exact absurd rfl hne
  | cons r rest ih =>
    intro pend suf t _ hall hsuf ht
    have hrf : ¬(r.alloc = true) := by simp [hall r (List.mem_cons_self r rest)]
    cases rest with
    | nil =>
      have hstep : coalRec pend ([r] ++ suf) = coalRec (some (pendSum pend + r.size)) suf := by
        cases pend with
        | none =>
          rw [List.singleton_append, coalRec_none_cons, if_neg hrf]
          simp [pendSum]
        | some s =>
          rw [List.singleton_append, coalRec_some_cons, if_neg hrf]
          simp [pendSum]
      rw [hstep]
      have ht2 : pendSum pend + r.size = t := by rw [ht]; simp [sumSizes]
      rcases hsuf with rfl | ⟨c, cs, rfl, hca⟩
      · rw [coalRec_some_nil, coalRec_none_nil, ht2]
      · rw [coalRec_some_cons, if_pos hca, coalRec_none_cons, if_pos hca, ht2]
    | cons r2 rest2 =>
      have hall2 : ∀ x ∈ r2 :: rest2, x.alloc = false :=
        fun x hx => hall x (List.mem_cons_of_mem r hx)
      have hstep : coalRec pend ((r :: r2 :: rest2) ++ suf) =
          coalRec (some (pendSum pend + r.size)) ((r2 :: rest2) ++ suf) := by
        cases pend with
        | none =>
          rw [List.cons_append, coalRec_none_cons, if_neg hrf]
          simp [pendSum]
        | some s =>
          rw [List.cons_append, coalRec_some_cons, if_neg hrf]
          simp [pendSum]
      rw [hstep]
      refine ih (some (pendSum pend + r.size)) suf t (by simp) hall2 hsuf ?_
      rw [ht]
      simp [pendSum, sumSizes]
      ring

/-- Previous-block status seen by the list that follows an open run. -/
def pendP : Option Int → Bool → Bool
  | none, p => p
  | some _, _ => false

theorem coalRec_snoc_alloc :
    ∀ (pre : List Blk) (pend : Option Int) (b : Blk), b.alloc = true →
      ∃ q, coalRec pend (pre ++ [b]) = q ++ [b] ∧
        sumSizes q = pendSum pend + sumSizes pre ∧
        (∀ p, lastAlloc p q = lastAlloc (pendP pend p) pre) := by
  intro pre
  induction pre with
  | nil =>
    intro pend b hba
    cases pend with
    | none =>
      refine ⟨[], ?_, by simp [sumSizes, pendSum], ?_⟩
      · simp [coalRec_none_cons, hba, coalRec_none_nil]
      · intro p; simp [lastAlloc, pendP]
    | some s =>
      refine ⟨[⟨s, false⟩], ?_, by simp [sumSizes, pendSum], ?_⟩
      · simp [coalRec_some_cons, hba, coalRec_none_nil]
      · intro p; simp [lastAlloc, pendP]
  | cons x xs ih =>
    intro pend b hba
    cases pend with
    | none =>
      by_cases hx : x.alloc
      · obtain ⟨q, hq, hsq, hlq⟩ := ih none b hba
        refine ⟨x :: q, ?_, ?_, ?_⟩
        · simp only [List.cons_append, coalRec_none_cons, if_pos hx, hq, List.cons_append]
        · simp [sumSizes, hsq, pendSum]
        · intro p
          simp only [lastAlloc, hlq x.alloc, pendP]
      · obtain ⟨q, hq, hsq, hlq⟩ := ih (some x.size) b hba
        refine ⟨q, ?_, ?_, ?_⟩
        · simpa [List.cons_append, coalRec_none_cons, if_neg hx] using hq
        · rw [hsq]; simp [sumSizes, pendSum]
        · intro p
          rw [hlq p]
          have hx2 : x.alloc = false := by simpa using hx
          cases xs <;> simp [lastAlloc, pendP, hx2]
    | some s =>
      by_cases hx : x.alloc
      · obtain ⟨q, hq, hsq, hlq⟩ := ih none b hba
        refine ⟨(⟨s, false⟩ : Blk) :: x :: q, ?_, ?_, ?_⟩
        · simp only [List.cons_append, coalRec_some_cons, if_pos hx, hq, List.cons_append]
        · simp [sumSizes, hsq, pendSum]; try ring
        · intro p
          simp only [lastAlloc, hlq x.alloc, pendP]
      · obtain ⟨q, hq, hsq, hlq⟩ := ih (some (s + x.size)) b hba
        refine ⟨q, ?_, ?_, ?_⟩
        · simpa [List.cons_append, coalRec_some_cons, if_neg hx] using hq
        · rw [hsq]; simp [sumSizes, pendSum]; try ring
        · intro p
          rw [hlq p]
          have hx2 : x.alloc = false := by simpa using hx
          cases xs <;> simp [lastAlloc, pendP, hx2]

theorem lastAlloc_snoc (p : Bool) (q : List Blk) (a : Blk) :
    lastAlloc p (q ++ [a]) = a.alloc := by
  induction q generalizing p with
  | nil => simp [lastAlloc]
  | cons x xs ih => simp [lastAlloc, ih]

theorem lastAlloc_true_decomp :
    ∀ (pre : List Blk) (p : Bool), lastAlloc p pre = true →
      pre = [] ∨ ∃ pre0 a, pre = pre0 ++ [a] ∧ a.alloc = true := by
  intro pre
  induction pre with
  | nil => intro p _; exact Or.inl rfl
  | cons x xs ih =>
    intro p hl
    right
    rcases ih x.alloc hl with rfl | ⟨pre0, a, rfl, ha⟩
    · exact ⟨[], x, by simp, by simpa [lastAlloc] using hl⟩
    · exact ⟨x :: pre0, a, by simp, ha⟩

/-! ### Header walk totals -/

theorem walkTotalLoop_sim (h : Heap) :
    ∀ (suf : List Blk) (p : Bool) (off acc : Int) (fuel : Nat),
      BlocksAt h suf p off → WFL suf → suf.length + 1 ≤ fuel →
      walkTotalLoop h fuel off acc = some (acc + sumSizes suf) := by
  intro suf
  induction suf with
  | nil =>
    intro p off acc fuel hb _ hf
    obtain ⟨f, rfl⟩ : ∃ f, fuel = f + 1 := ⟨fuel - 1, by omega⟩
    have h1 : h.read off = 1 := hb
    show (if h.read off = 1 then some acc else _) = _
    rw [if_pos h1]
    simp [sumSizes]
  | cons b bs ih =>
    intro p off acc fuel hb hw hf
    obtain ⟨f, rfl⟩ : ∃ f, fuel = f + 1 := ⟨fuel - 1, by omega⟩
    rw [WFL_cons] at hw
    obtain ⟨⟨hs8, hsm⟩, hwbs⟩ := hw
    obtain ⟨hhd, -, htl⟩ := hb
    have hne : h.read off ≠ 1 := by rw [hhd]; exact hdrVal_ne_one b p hs8
    have hstrip : h.read off - h.read off % 8 = b.size := by
      rw [hhd]; exact hdrVal_strip b p hsm
    show (if h.read off = 1 then some acc
      else walkTotalLoop h f (off + (h.read off - h.read off % 8))
        (acc + (h.read off - h.read off % 8))) = _
    rw [if_neg hne, hstrip,
      ih b.alloc (off + b.size) (acc + b.size) f htl hwbs (by simp at hf ⊢; omega)]
    simp [sumSizes]
    ring

theorem walkTotal_eq {h : Heap} {bl : List Blk} (hf : HeapOf h bl) (hw : WFL bl) :
    walkTotal h = some h.allocsize := by
  obtain ⟨hba, hsum⟩ := hf
  rw [walkTotal, walkTotalLoop_sim h bl true 0 0 (h.allocsize.toNat + 1) hba hw
    (by have := length_le_sumSizes hw; omega)]
  rw [zero_add, hsum]

/-! ### The freshly initialised heap -/

theorem initHeap_base (a b : Int) : (initHeap a b).base = b := rfl

theorem initHeap_allocsize (a b : Int) : (initHeap a b).allocsize = a := rfl

theorem zeroHeap_read (a b x : Int) : (zeroHeap a b).read x = 0 := rfl

theorem initHeap_read_zero (a b : Int) (h8 : 8 ≤ a) :
    (initHeap a b).read 0 = a + 2 := by
  simp only [initHeap, read_write, zeroHeap_read]
  rw [if_neg (by omega)]
  simp

theorem initHeap_read_footer (a b : Int) : (initHeap a b).read (a - 4) = a := by
  simp only [initHeap, read_write, zeroHeap_read]
  simp

theorem initHeap_read_end (a b : Int) (h8 : 8 ≤ a) : (initHeap a b).read a = 1 := by
  simp only [initHeap, read_write, zeroHeap_read]
  rw [if_neg (by omega), if_neg (by omega), if_neg (by omega)]
  simp

theorem initHeap_read_other (a b x : Int) (h0 : x ≠ 0) (hf : x ≠ a - 4) (he : x ≠ a) :
    (initHeap a b).read x = 0 := by
  simp only [initHeap, read_write, zeroHeap_read]
  rw [if_neg hf, if_neg h0, if_neg h0, if_neg he]

theorem initHeap_HeapOf (a b : Int) (h8 : 8 ≤ a) (hm : a % 8 = 0) :
    HeapOf (initHeap a b) [(⟨a, false⟩ : Blk)] := by
  refine ⟨⟨?_, ?_, ?_⟩, ?_⟩
  · rw [initHeap_read_zero a b h8]
    simp [hdrVal]
  · intro _
    show (initHeap a b).read (0 + a - 4) = a
    rw [show (0 : Int) + a - 4 = a - 4 by ring, initHeap_read_footer]
  · show (initHeap a b).read (0 + a) = 1
    rw [zero_add, initHeap_read_end a b h8]
  · show a + 0 = a
    ring

/-! ### `myFree` failure analysis and `myInit` transitions -/

theorem myFree_fail_cases (h : Heap) (ptr : Int)
    (hc : ptr = 0 ∨ ptr % 8 ≠ 0 ∨ ptr < h.base ∨ h.base + h.allocsize < ptr ∨
      h.read (ptr - h.base - 4) % 2 = 0) :
    myFree h ptr = (-1, h) := by
  rw [myFree_expand]
  by_cases h0 : ptr = 0
  · rw [if_pos h0]
  · rw [if_neg h0]
    by_cases h8 : ptr % 8 ≠ 0
    · rw [if_pos h8]
    · rw [if_neg h8]
      by_cases hbd : ptr < h.base ∨ h.base + h.allocsize < ptr
      · rw [if_pos hbd]
      · rw [if_neg hbd]
        have hodd : h.read (ptr - h.base - 4) % 2 = 0 := by
          push_neg at h8 hbd
          rcases hc with hc | hc | hc | hc | hc
          · exact absurd hc h0
          · exact absurd h8 hc
          · exact absurd hc (by omega)
          · exact absurd hc (by omega)
          · exact hc
        rw [if_pos hodd]

theorem myFree_success_ret (h : Heap) (ptr : Int)
    (hc : ¬(ptr = 0 ∨ ptr % 8 ≠ 0 ∨ ptr < h.base ∨ h.base + h.allocsize < ptr ∨
      h.read (ptr - h.base - 4) % 2 = 0)) :
    (myFree h ptr).1 = 0 := by
  push_neg at hc
  obtain ⟨h0, h8, hlo, hhi, hodd⟩ := hc
  rw [myFree_expand, if_neg h0, if_neg (by simpa using h8),
    if_neg (by push_neg; exact ⟨by omega, by omega⟩), if_neg hodd]

theorem myInit_eq (g : GlobalState) (pagesize : Int) (mmapResult : Option Int)
    (sizeOfRegion : Int) :
    myInit g pagesize mmapResult sizeOfRegion =
      if g.allocated_once ≠ 0 then (-1, g, none)
      else if sizeOfRegion ≤ 0 then (-1, g, none)
      else
        match mmapResult with
        | none =>
          (-1, { g with allocated_once := 0,
                        allocsize := sizeOfRegion +
                          (pagesize - sizeOfRegion % pagesize) % pagesize }, none)
        | some mmapPtr =>
          (0, { allocated_once := 1, heapStartAddr := mmapPtr + 4,
                allocsize := sizeOfRegion +
                  (pagesize - sizeOfRegion % pagesize) % pagesize - 8 },
            some (initHeap
              (sizeOfRegion + (pagesize - sizeOfRegion % pagesize) % pagesize - 8)
              (mmapPtr + 4))) := rfl

theorem myInit_already (g : GlobalState) (ps : Int) (prov : Option Int) (n : Int)
    (ha : g.allocated_once ≠ 0) : myInit g ps prov n = (-1, g, none) := by
  rw [myInit_eq, if_pos ha]

theorem myInit_nonpos (g : GlobalState) (ps : Int) (prov : Option Int) (n : Int)
    (ha : g.allocated_once = 0) (hn : n ≤ 0) : myInit g ps prov n = (-1, g, none) := by
  rw [myInit_eq, if_neg (by simp [ha]), if_pos hn]

theorem myInit_provider_fail (g : GlobalState) (ps n : Int)
    (ha : g.allocated_once = 0) (hn : 0 < n) :
    myInit g ps none n =
      (-1, { g with allocsize := n + (ps - n % ps) % ps }, none) := by
  rw [myInit_eq, if_neg (by simp [ha]), if_neg (by omega)]
  obtain ⟨a1, a2, a3⟩ := g
  simp only [] at ha
  subst ha
  rfl

theorem myAlloc_succeeds_of_cand {h : Heap} {bl : List Blk} {n : Int}
    (hf : HeapOf h bl) (hw : WFL bl) (hn : 0 < n)
    (hex : ∃ o s, IsCand bl (needSize n) o s) :
    ∃ p h', myAlloc h n = some (some p, h') := by
  have hna : n ≤ h.allocsize := by
    obtain ⟨o, s, hc⟩ := hex
    obtain ⟨-, -, -, -, hns, ho0, -, -, -, hos⟩ := IsCand_decomp hw hc
    have h1 := needSize_lb n
    have h2 : sumSizes bl = h.allocsize := hf.2
    omega
  obtain ⟨o, s, hbf⟩ := bestFitL_exists hw hex
  obtain ⟨hcand, -⟩ := bestFitL_spec hw hbf
  obtain ⟨pre, suf, hbl, ho, hns, -, -, -, -, -⟩ := IsCand_decomp hw hcand
  by_cases hex2 : s = needSize n
  · obtain ⟨h', heq, -⟩ := myAlloc_exact hf hw hbl ho hbf hn hna hex2
    exact ⟨_, h', heq⟩
  · have hlt : needSize n < s := by omega
    obtain ⟨h', heq, -⟩ := myAlloc_split hf hw hbl ho hbf hn hna hlt
    exact ⟨_, h', heq⟩

/-! ## Claim theorems -/

/-- C5: `myFree(ptr)` returns -1 and leaves the heap unchanged exactly when
`ptr` is null, misaligned, out of the region bounds, or points at a block whose
alloc bit is already clear; in every failure case nothing is written. -/
theorem myFree_failure_iff :
    ∀ (h : Heap) (ptr : Int),
      ((myFree h ptr).1 = -1 ∧ (myFree h ptr).2 = h) ↔
        (ptr = 0 ∨ ptr % 8 ≠ 0 ∨ ptr < h.base ∨ h.base + h.allocsize < ptr ∨
          h.read (ptr - h.base - 4) % 2 = 0) := by
  intro h ptr
  constructor
  · rintro ⟨hret, -⟩
    by_contra hc
    have h0 := myFree_success_ret h ptr hc
    omega
  · intro hc
    rw [myFree_fail_cases h ptr hc]
    exact ⟨rfl, rfl⟩

/-- C7: every address returned by a successful `myAlloc` is a multiple of 8 and
lies strictly inside the usable region. -/
theorem myAlloc_ret_aligned_in_region :
    ∀ (h : Heap) (bl : List Blk) (n p : Int) (h' : Heap),
      HeapOf h bl → WFL bl → h.base % 8 = 4 →
      myAlloc h n = some (some p, h') →
      p % 8 = 0 ∧ h.base < p ∧ p < h.base + h.allocsize := by
  intro h bl n p h' hf hw hb8 hr
  obtain ⟨hn, hna, o, s, hbf, hp⟩ := myAlloc_success_inv hf hw hr
  obtain ⟨hcand, -⟩ := bestFitL_spec hw hbf
  obtain ⟨pre, suf, hbl, ho, hns, ho0, ho8, hs8, hsm, hos⟩ := IsCand_decomp hw hcand
  have hsum : sumSizes bl = h.allocsize := hf.2
  subst hp
  refine ⟨by omega, by omega, by omega⟩

/-- C8 counterexample: on a provider failure, `myInit` returns -1 but the
global `allocsize` variable has already been overwritten (0 became 4096), so
the failure is not mutation-free as claimed. -/
theorem myInit_partial_mutation_cex :
    (myInit ⟨0, 0, 0⟩ 4096 none 8).1 = -1 ∧
      ¬((myInit ⟨0, 0, 0⟩ 4096 none 8).2.1 = (⟨0, 0, 0⟩ : GlobalState)) := by
  constructor
  · rfl
  · intro hc
    have := congrArg GlobalState.allocsize hc
    simp [myInit] at this

/-- C8 (amended): a failed `myInit` returns -1 and never touches `heapStart`
or the once-flag; when it fails because it was already called or because the
request is non-positive no state changes at all, but when the region provider
fails the global `allocsize` has already been set to the page-padded request
size. -/
theorem myInit_failure_spec :
    (∀ (g : GlobalState) (ps : Int) (prov : Option Int) (n : Int),
      g.allocated_once ≠ 0 → myInit g ps prov n = (-1, g, none)) ∧
    (∀ (g : GlobalState) (ps : Int) (prov : Option Int) (n : Int),
      g.allocated_once = 0 → n ≤ 0 → myInit g ps prov n = (-1, g, none)) ∧
    (∀ (g : GlobalState) (ps n : Int),
      g.allocated_once = 0 → 0 < n →
      myInit g ps none n = (-1, { g with allocsize := n + (ps - n % ps) % ps }, none)) :=
  ⟨myInit_already, myInit_nonpos, myInit_provider_fail⟩

theorem myInit_failure_spec_witness :
    myInit ⟨0, 0, 0⟩ 4096 none 8 = (-1, ⟨0, 0, 4096⟩, none) := by
  have h := myInit_failure_spec.2.2 ⟨0, 0, 0⟩ 4096 8 rfl (by decide)
  rw [h]
  rfl

/-- C10: on a freshly initialised heap of usable size S, `myAlloc n` succeeds
exactly when 0 < n ≤ S - 4 — the 4 bytes of header overhead are added before
rounding, even though the entry check only rejects n ≤ 0 or n > S. -/
theorem fresh_alloc_succeeds_iff :
    ∀ (S base n : Int), 8 ≤ S → S % 8 = 0 →
      ((∃ p h', myAlloc (initHeap S base) n = some (some p, h')) ↔
        (0 < n ∧ n ≤ S - 4)) := by
  intro S base n h8 hm
  have hf := initHeap_HeapOf S base h8 hm
  have hw : WFL [(⟨S, false⟩ : Blk)] := by
    intro x hx
    rcases List.mem_cons.mp hx with rfl | hx
    · exact ⟨h8, hm⟩
    · simp at hx
  constructor
  · rintro ⟨p, h', hr⟩
    obtain ⟨hn, hna, o, s, hbf, -⟩ := myAlloc_success_inv hf hw hr
    obtain ⟨hcand, -⟩ := bestFitL_spec hw hbf
    obtain ⟨pre, suf, hbl, ho, hns, -, -, -, -, -⟩ := IsCand_decomp hw hcand
    have hsS : s = S := by
      cases pre with
      | nil =>
        simp only [List.nil_append] at hbl
        have : (⟨S, false⟩ : Blk) = ⟨s, false⟩ := by injection hbl
        injection this with h1
        omega
      | cons x xs =>
        have h2 : ([] : List Blk) = xs ++ (⟨s, false⟩ : Blk) :: suf := by injection hbl
        cases xs <;> simp at h2
    have h1 := needSize_lb n
    have h2 := needSize_mod8 n
    subst hsS
    refine ⟨hn, by omega⟩
  · rintro ⟨hn, hS⟩
    refine myAlloc_succeeds_of_cand hf hw hn ⟨0, S, [], [], by simp, by simp [sumSizes], ?_⟩
    have h1 := needSize_mod8 n
    have h2 := needSize_lb n
    have h3 := needSize_ub n
    omega

theorem fresh_alloc_succeeds_iff_witness :
    (∃ p h', myAlloc (initHeap 48 4100) 44 = some (some p, h')) ∧
      ¬(∃ p h', myAlloc (initHeap 48 4100) 45 = some (some p, h')) := by
  constructor
  · exact (fresh_alloc_succeeds_iff 48 4100 44 (by decide) (by decide)).mpr
      ⟨by decide, by decide⟩
  · intro hc
    have := (fresh_alloc_succeeds_iff 48 4100 45 (by decide) (by decide)).mp hc
    omega

theorem myAlloc_ret_aligned_in_region_witness :
    ∃ p h', myAlloc (buildHeap [⟨64, false⟩] 4100) 20 = some (some p, h') ∧
      p % 8 = 0 ∧ 4100 < p ∧ p < 4100 + 64 := by
  have hfst : (myAlloc (buildHeap [⟨64, false⟩] 4100) 20).map Prod.fst =
      some (some 4104) := by decide
  cases hr : myAlloc (buildHeap [⟨64, false⟩] 4100) 20 with
  | none => rw [hr] at hfst; simp at hfst
  | some r =>
    obtain ⟨ro, rh⟩ := r
    rw [hr] at hfst
    have hro : ro = some 4104 := by simpa using hfst
    subst hro
    have hsp := myAlloc_ret_aligned_in_region (buildHeap [⟨64, false⟩] 4100)
      [⟨64, false⟩] 20 4104 rh (buildHeap_HeapOf _ _ (by decide)) (by decide) (by decide) hr
    exact ⟨4104, rh, rfl, hsp⟩

/-- C1: on any realised heap, a successful `myAlloc` places the request in a
sufficient free block of minimal size, ties going to the lowest address; a
sufficient free block also guarantees success; and on free blocks of sizes
40, 24, 64 a request needing 24 bytes gets exactly the 24-byte block. -/
theorem myAlloc_bestFit_selection :
    (∀ (h : Heap) (bl : List Blk) (n p : Int) (h' : Heap),
      HeapOf h bl → WFL bl → 0 < n →
      myAlloc h n = some (some p, h') →
      ∃ o s, p = h.base + o + 4 ∧ IsCand bl (needSize n) o s ∧
        ∀ o' s', IsCand bl (needSize n) o' s' → s ≤ s' ∧ (s' = s → o ≤ o')) ∧
    (∀ (h : Heap) (bl : List Blk) (n : Int),
      HeapOf h bl → WFL bl → 0 < n →
      (∃ o s, IsCand bl (needSize n) o s) →
      ∃ p h', myAlloc h n = some (some p, h')) ∧
    ((myAlloc (buildHeap [⟨40, false⟩, ⟨24, false⟩, ⟨64, false⟩] 4100) 20).map Prod.fst =
      some (some 4144)) := by
  refine ⟨?_, ?_, by decide⟩
  · intro h bl n p h' hf hw hn hr
    obtain ⟨-, -, o, s, hbf, hp⟩ := myAlloc_success_inv hf hw hr
    obtain ⟨hcand, hmin⟩ := bestFitL_spec hw hbf
    exact ⟨o, s, hp, hcand, hmin⟩
  · intro h bl n hf hw hn hex
    exact myAlloc_succeeds_of_cand hf hw hn hex

theorem myAlloc_bestFit_selection_witness :
    ∃ p h', myAlloc (buildHeap [⟨64, false⟩, ⟨24, false⟩] 4100) 20 =
      some (some p, h') := by
  refine myAlloc_bestFit_selection.2.1 (buildHeap [⟨64, false⟩, ⟨24, false⟩] 4100)
    [⟨64, false⟩, ⟨24, false⟩] 20 (buildHeap_HeapOf _ _ (by decide)) (by decide) (by decide)
    ⟨64, 24, [⟨64, false⟩], [], by decide, by decide, by decide⟩

/-- C2: when the best-fit candidate is strictly larger than the needed size it
is split: the allocated front part keeps the candidate's prev-alloc bit and
gets alloc bit 1, the remainder becomes a free block with header
`remainder + 2` and a footer holding the remainder size in its last word, and
the returned address is the word past the allocated header. -/
theorem myAlloc_split_spec :
    ∀ (h : Heap) (bl pre suf : List Blk) (s n o : Int),
      HeapOf h bl → WFL bl →
      bl = pre ++ (⟨s, false⟩ : Blk) :: suf → o = sumSizes pre →
      bestFitL bl (needSize n) 0 none = some (o, s) →
      0 < n → n ≤ h.allocsize → needSize n < s →
      ∃ h', myAlloc h n = some (some (h.base + o + 4), h') ∧
        h'.read o = needSize n + 1 + (h.read o - s) ∧
        h'.read (o + needSize n) = (s - needSize n) + 2 ∧
        h'.read (o + s - 4) = s - needSize n ∧
        HeapOf h' (pre ++ (⟨needSize n, true⟩ : Blk) ::
          (⟨s - needSize n, false⟩ : Blk) :: suf) := by
  intro h bl pre suf s n o hf hw hbl ho hbf hn hna hlt
  obtain ⟨h', heq, hA, hB, hC, -, -, -, hof⟩ :=
    myAlloc_split hf hw hbl ho hbf hn hna hlt
  refine ⟨h', heq, hA, ?_, hC, hof⟩
  rw [hB]
  ring

theorem myAlloc_split_spec_witness :
    ∃ h', myAlloc (buildHeap [⟨64, false⟩] 4100) 20 =
        some (some ((buildHeap [⟨64, false⟩] 4100).base + 0 + 4), h') ∧
      h'.read 0 = needSize 20 + 1 +
        ((buildHeap [⟨64, false⟩] 4100).read 0 - 64) ∧
      h'.read (0 + needSize 20) = (64 - needSize 20) + 2 ∧
      h'.read (0 + 64 - 4) = 64 - needSize 20 ∧
      HeapOf h' ([] ++ (⟨needSize 20, true⟩ : Blk) ::
        (⟨64 - needSize 20, false⟩ : Blk) :: []) := by
  exact myAlloc_split_spec (buildHeap [⟨64, false⟩] 4100) [⟨64, false⟩] [] [] 64 20 0
    (buildHeap_HeapOf _ _ (by decide)) (by decide) rfl (by decide) (by decide) (by decide)
    (by decide) (by decide)

/-- C6: a successful `myFree` clears the freed block's alloc bit, clears the
following block's prev-alloc bit unless that block is the end marker, writes a
footer holding the stripped size in the block's last word, touches no other
word, returns 0, and performs no merging: the block list keeps its shape with
just that block turned free. -/
theorem myFree_success_spec :
    ∀ (h : Heap) (bl pre suf : List Blk) (s : Int),
      HeapOf h bl → WFL bl → bl = pre ++ (⟨s, true⟩ : Blk) :: suf →
      0 < h.base → h.base % 8 = 4 →
      ∃ h', myFree h (h.base + sumSizes pre + 4) = (0, h') ∧
        h'.read (sumSizes pre) = h.read (sumSizes pre) - 1 ∧
        (suf ≠ [] → h'.read (sumSizes pre + s) = h.read (sumSizes pre + s) - 2) ∧
        (suf = [] → h'.read (sumSizes pre + s) = h.read (sumSizes pre + s)) ∧
        h'.read (sumSizes pre + s - 4) = s ∧
        (∀ x, x ≠ sumSizes pre → x ≠ sumSizes pre + s → x ≠ sumSizes pre + s - 4 →
          h'.read x = h.read x) ∧
        HeapOf h' (pre ++ (⟨s, false⟩ : Blk) :: suf) := by
  intro h bl pre suf s hf hw hbl hb0 hb8
  obtain ⟨h', heq, hA, hB, hC, hD, hE, -, -, hof⟩ := myFree_sim hf hw hbl hb0 hb8
  exact ⟨h', heq, hA, hC, hB, hD, hE, hof⟩

theorem myFree_success_spec_witness :
    ∃ h', myFree (buildHeap [⟨16, true⟩, ⟨24, true⟩] 4100)
        ((buildHeap [⟨16, true⟩, ⟨24, true⟩] 4100).base + sumSizes [] + 4) = (0, h') ∧
      h'.read (sumSizes ([] : List Blk)) =
        (buildHeap [⟨16, true⟩, ⟨24, true⟩] 4100).read (sumSizes ([] : List Blk)) - 1 ∧
      (([⟨24, true⟩] : List Blk) ≠ [] →
        h'.read (sumSizes ([] : List Blk) + 16) =
          (buildHeap [⟨16, true⟩, ⟨24, true⟩] 4100).read (sumSizes ([] : List Blk) + 16) - 2) ∧
      (([⟨24, true⟩] : List Blk) = [] →
        h'.read (sumSizes ([] : List Blk) + 16) =
          (buildHeap [⟨16, true⟩, ⟨24, true⟩] 4100).read (sumSizes ([] : List Blk) + 16)) ∧
      h'.read (sumSizes ([] : List Blk) + 16 - 4) = 16 ∧
      (∀ x, x ≠ sumSizes ([] : List Blk) → x ≠ sumSizes ([] : List Blk) + 16 →
        x ≠ sumSizes ([] : List Blk) + 16 - 4 →
        h'.read x = (buildHeap [⟨16, true⟩, ⟨24, true⟩] 4100).read x) ∧
      HeapOf h' ([] ++ (⟨16, false⟩ : Blk) :: [⟨24, true⟩]) := by
  exact myFree_success_spec (buildHeap [⟨16, true⟩, ⟨24, true⟩] 4100)
    [⟨16, true⟩, ⟨24, true⟩] [] [⟨24, true⟩] 16
    (buildHeap_HeapOf _ _ (by decide)) (by decide) rfl (by decide) (by decide)

/-- C9: the header walk over the region accounts for the whole usable size (the
end marker contributing zero) after initialisation and after each public
operation, and no operation moves the region start or changes the usable
size. -/
theorem conservation_after_ops :
    (∀ (S base : Int), 8 ≤ S → S % 8 = 0 →
      walkTotal (initHeap S base) = some S ∧ (initHeap S base).base = base ∧
        (initHeap S base).allocsize = S) ∧
    (∀ (h : Heap) (bl : List Blk) (n : Int) (r : Option Int) (h' : Heap),
      HeapOf h bl → WFL bl → myAlloc h n = some (r, h') →
      walkTotal h' = some h'.allocsize ∧ h'.base = h.base ∧ h'.allocsize = h.allocsize) ∧
    (∀ (h : Heap) (bl pre suf : List Blk) (s : Int) (r : Int) (h' : Heap),
      HeapOf h bl → WFL bl → bl = pre ++ (⟨s, true⟩ : Blk) :: suf →
      0 < h.base → h.base % 8 = 4 →
      myFree h (h.base + sumSizes pre + 4) = (r, h') →
      walkTotal h' = some h'.allocsize ∧ h'.base = h.base ∧ h'.allocsize = h.allocsize) ∧
    (∀ (h : Heap) (bl : List Blk) (h' : Heap),
      HeapOf h bl → WFL bl → coalesce h = some h' →
      walkTotal h' = some h'.allocsize ∧ h'.base = h.base ∧ h'.allocsize = h.allocsize) := by
  refine ⟨?_, ?_, ?_, ?_⟩
  · intro S base h8 hm
    have hf := initHeap_HeapOf S base h8 hm
    have hw : WFL [(⟨S, false⟩ : Blk)] := by
      intro x hx
      rcases List.mem_cons.mp hx with rfl | hx
      · exact ⟨h8, hm⟩
      · simp at hx
    exact ⟨walkTotal_eq hf hw, rfl, rfl⟩
  · intro h bl n r h' hf hw hr
    rcases myAlloc_cases hf hw hr with ⟨-, rfl⟩ | ⟨bl', hof', hw', -, hb, ha⟩
    · exact ⟨by rw [walkTotal_eq hf hw], rfl, rfl⟩
    · exact ⟨walkTotal_eq hof' hw', hb, ha⟩
  · intro h bl pre suf s r h' hf hw hbl hb0 hb8 hr
    obtain ⟨h2, heq, -, -, -, -, -, hb, ha, hof⟩ := myFree_sim hf hw hbl hb0 hb8
    rw [heq] at hr
    have hh : h2 = h' := congrArg Prod.snd hr
    subst hh
    have hw2 : WFL (pre ++ (⟨s, false⟩ : Blk) :: suf) := by
      have hwl : WFL (pre ++ (⟨s, true⟩ : Blk) :: suf) := hbl ▸ hw
      rw [WFL_append, WFL_cons] at hwl
      rw [WFL_append, WFL_cons]
      exact ⟨hwl.1, ⟨hwl.2.1.1, hwl.2.1.2⟩, hwl.2.2⟩
    exact ⟨walkTotal_eq hof hw2, hb, ha⟩
  · intro h bl h' hf hw hr
    obtain ⟨h2, heq, hof, hb, ha⟩ := coalesce_sim hf hw
    rw [heq] at hr
    have hh : h2 = h' := Option.some.inj hr
    subst hh
    exact ⟨walkTotal_eq hof (coalesceL_WFL hw), hb, ha⟩

theorem conservation_after_ops_witness :
    walkTotal (initHeap 48 4100) = some 48 ∧ (initHeap 48 4100).base = 4100 ∧
      (initHeap 48 4100).allocsize = 48 :=
  conservation_after_ops.1 48 4100 (by decide) (by decide)

theorem coalesceL_run_decomp {bl pre run suf : List Blk}
    (hbl : bl = pre ++ run ++ suf) (hrun : run ≠ [])
    (hfree : ∀ x ∈ run, x.alloc = false)
    (hleft : lastAlloc true pre = true)
    (hright : suf = [] ∨ ∃ c cs, suf = c :: cs ∧ c.alloc = true) :
    ∃ q, coalesceL bl = q ++ (⟨sumSizes run, false⟩ : Blk) :: coalRec none suf ∧
      sumSizes q = sumSizes pre ∧ lastAlloc true q = true := by
  rcases lastAlloc_true_decomp pre true hleft with rfl | ⟨pre0, a, rfl, ha⟩
  · refine ⟨[], ?_, rfl, rfl⟩
    rw [hbl]
    simp only [List.nil_append]
    rw [coalesceL, coalRec_run run none suf (sumSizes run) hrun hfree hright
      (by simp [pendSum])]
  · obtain ⟨q0, hq0, hsq0, hlq0⟩ := coalRec_snoc_alloc pre0 none a ha
    refine ⟨q0 ++ [a], ?_, ?_, ?_⟩
    · rw [hbl, coalesceL]
      rw [show (pre0 ++ [a]) ++ run ++ suf = pre0 ++ a :: (run ++ suf) by simp]
      rw [coalRec_split_alloc pre0 none a (run ++ suf) ha, hq0]
      rw [coalRec_run run none suf (sumSizes run) hrun hfree hright (by simp [pendSum])]
    · rw [sumSizes_append, hsq0]
      rw [sumSizes_append]
      simp [pendSum]
    · rw [lastAlloc_snoc, ha]

/-- C3: one `coalesce` call merges each maximal run of adjacent free blocks
into a single free block whose header is the run total with alloc bit 0 and
prev-alloc bit 1 (the preceding block of a maximal run is allocated), and
whose last word is a footer holding the merged size; allocated blocks and free
blocks with no free neighbour keep their header and footer values. -/
theorem coalesce_merges_runs :
    (∀ (h h' : Heap) (bl pre run suf : List Blk),
      HeapOf h bl → WFL bl →
      bl = pre ++ run ++ suf → 2 ≤ run.length →
      (∀ x ∈ run, x.alloc = false) →
      lastAlloc true pre = true →
      (suf = [] ∨ ∃ c cs, suf = c :: cs ∧ c.alloc = true) →
      coalesce h = some h' →
      h'.read (sumSizes pre) = sumSizes run + 2 ∧
      h'.read (sumSizes pre + sumSizes run - 4) = sumSizes run ∧
      HeapOf h' (coalesceL bl)) ∧
    (∀ (h h' : Heap) (bl pre suf : List Blk) (b : Blk),
      HeapOf h bl → WFL bl →
      bl = pre ++ b :: suf →
      (b.alloc = true ∨
        (b.alloc = false ∧ lastAlloc true pre = true ∧
          (suf = [] ∨ ∃ c cs, suf = c :: cs ∧ c.alloc = true))) →
      coalesce h = some h' →
      h'.read (sumSizes pre) = h.read (sumSizes pre) ∧
      (b.alloc = false →
        h'.read (sumSizes pre + b.size - 4) = h.read (sumSizes pre + b.size - 4))) := by
  constructor
  · intro h h' bl pre run suf hf hw hbl hlen hfree hleft hright hco
    obtain ⟨h2, heq, hof, -, -⟩ := coalesce_sim hf hw
    rw [heq] at hco
    have hh : h2 = h' := Option.some.inj hco
    subst hh
    obtain ⟨q, hcl, hsq, hlq⟩ :=
      coalesceL_run_decomp hbl (by intro hx; rw [hx] at hlen; simp at hlen) hfree hleft hright
    have hlook := BlocksAt_lookup hcl hof.1
    have hhd := hlook.1
    have hftr := hlook.2.1 rfl
    rw [hlq] at hhd
    have hpos : (0 : Int) + sumSizes q = sumSizes pre := by omega
    rw [hpos] at hhd
    have hpos2 : (0 : Int) + sumSizes q + (⟨sumSizes run, false⟩ : Blk).size - 4 =
        sumSizes pre + sumSizes run - 4 := by
      show (0 : Int) + sumSizes q + sumSizes run - 4 = sumSizes pre + sumSizes run - 4
      omega
    rw [hpos2] at hftr
    refine ⟨?_, hftr, hof⟩
    rw [hhd]
    simp [hdrVal]
  · intro h h' bl pre suf b hf hw hbl hcase hco
    obtain ⟨h2, heq, hof, -, -⟩ := coalesce_sim hf hw
    rw [heq] at hco
    have hh : h2 = h' := Option.some.inj hco
    subst hh
    have horig := BlocksAt_lookup hbl hf.1
    have hor1 : h.read (sumSizes pre) = hdrVal b (lastAlloc true pre) := by
      have := horig.1
      rwa [zero_add] at this
    rcases hcase with hba | ⟨hba, hleft, hright⟩
    · obtain ⟨q0, hq0, hsq0, hlq0⟩ := coalRec_snoc_alloc pre none b hba
      have hcl : coalesceL bl = q0 ++ b :: coalRec none suf := by
        rw [hbl, coalesceL, coalRec_split_alloc pre none b suf hba, hq0]
        simp
      have hlook := BlocksAt_lookup hcl hof.1
      have hhd := hlook.1
      rw [hlq0 true] at hhd
      have hpos : (0 : Int) + sumSizes q0 = sumSizes pre := by
        simp [pendSum] at hsq0
        omega
      rw [hpos] at hhd
      constructor
      · rw [hhd, hor1]
        simp [pendP]
      · intro hfb
        rw [hba] at hfb
        exact absurd hfb (by simp)
    · obtain ⟨q, hcl, hsq, hlq⟩ := coalesceL_run_decomp
        (show bl = pre ++ [b] ++ suf by rw [hbl]; simp)
        (by simp) (by intro x hx; simp at hx; rw [hx]; exact hba) hleft hright
      have hlook := BlocksAt_lookup hcl hof.1
      have hhd := hlook.1
      have hftr := hlook.2.1 rfl
      rw [hlq] at hhd
      have hpos : (0 : Int) + sumSizes q = sumSizes pre := by omega
      rw [hpos] at hhd
      have horigft : h.read (sumSizes pre + b.size - 4) = b.size := by
        have := horig.2.1 hba
        rwa [zero_add] at this
      constructor
      · rw [hhd, hor1, hleft]
        simp [hdrVal, sumSizes, hba]
      · intro _
        have hpos2 : (0 : Int) + sumSizes q + (⟨sumSizes [b], false⟩ : Blk).size - 4 =
            sumSizes pre + b.size - 4 := by
          show (0 : Int) + sumSizes q + sumSizes [b] - 4 = sumSizes pre + b.size - 4
          simp [sumSizes]
          omega
        rw [hpos2] at hftr
        rw [hftr, horigft]
        simp [sumSizes]

theorem coalesce_merges_runs_witness :
    (∃ h', coalesce (buildHeap [⟨16, false⟩, ⟨24, false⟩, ⟨8, false⟩] 4100) = some h' ∧
      h'.read 0 = 50 ∧ h'.read 44 = 48) ∧
    (∃ h', coalesce (buildHeap [⟨16, true⟩, ⟨32, false⟩] 4100) = some h' ∧
      h'.read 0 = (buildHeap [⟨16, true⟩, ⟨32, false⟩] 4100).read 0) := by
  constructor
  · have hso : (coalesce (buildHeap [⟨16, false⟩, ⟨24, false⟩, ⟨8, false⟩] 4100)).isSome =
        true := by decide
    cases hr : coalesce (buildHeap [⟨16, false⟩, ⟨24, false⟩, ⟨8, false⟩] 4100) with
    | none => rw [hr] at hso; simp at hso
    | some h2 =>
      have hsp := coalesce_merges_runs.1 (buildHeap [⟨16, false⟩, ⟨24, false⟩, ⟨8, false⟩] 4100)
        h2 [⟨16, false⟩, ⟨24, false⟩, ⟨8, false⟩] [] [⟨16, false⟩, ⟨24, false⟩, ⟨8, false⟩] []
        (buildHeap_HeapOf _ _ (by decide)) (by decide) (by simp) (by decide)
        (by decide) rfl (Or.inl rfl) hr
      have h1 := hsp.1
      have hft := hsp.2.1
      norm_num [sumSizes] at h1 hft
      exact ⟨h2, rfl, h1, hft⟩
  · have hso : (coalesce (buildHeap [⟨16, true⟩, ⟨32, false⟩] 4100)).isSome = true := by decide
    cases hr : coalesce (buildHeap [⟨16, true⟩, ⟨32, false⟩] 4100) with
    | none => rw [hr] at hso; simp at hso
    | some h2 =>
      have hsp := coalesce_merges_runs.2 (buildHeap [⟨16, true⟩, ⟨32, false⟩] 4100)
        h2 [⟨16, true⟩, ⟨32, false⟩] [] [⟨32, false⟩] ⟨16, true⟩
        (buildHeap_HeapOf _ _ (by decide)) (by decide) (by simp) (Or.inl rfl) hr
      have h1 := hsp.1
      norm_num [sumSizes] at h1
      exact ⟨h2, rfl, h1⟩

/-- C4: on a freshly initialised heap, any successful allocation followed by
freeing the returned address and one coalesce pass restores the region to a
single free block spanning the whole usable size: header holds the usable size
with alloc bit 0 and prev-alloc bit 1, the footer at the region's last word
holds the usable size, the end marker is intact, and the region start and
usable size are unchanged. -/
theorem alloc_free_coalesce_roundtrip (S base n p : Int) (h1 : Heap)
    (h8 : 8 ≤ S) (hm : S % 8 = 0) (hb0 : 0 < base) (hb8 : base % 8 = 4)
    (hr : myAlloc (initHeap S base) n = some (some p, h1)) :
    ∃ h2 h3, myFree h1 p = (0, h2) ∧ coalesce h2 = some h3 ∧
      h3.read 0 = S + 2 ∧ h3.read (S - 4) = S ∧ h3.read S = 1 ∧
      HeapOf h3 [(⟨S, false⟩ : Blk)] ∧ h3.base = base ∧ h3.allocsize = S := by
  have hw0 : WFL [(⟨S, false⟩ : Blk)] := by
    intro b hb
    simp at hb
    rw [hb]
    exact ⟨h8, hm⟩
  have hf0 : HeapOf (initHeap S base) [(⟨S, false⟩ : Blk)] := initHeap_HeapOf S base h8 hm
  obtain ⟨hn, hna, o, s, hbf, hp⟩ := myAlloc_success_inv hf0 hw0 hr
  rw [initHeap_allocsize] at hna
  obtain ⟨⟨pre, suf, hbl, ho, hns⟩, -⟩ := bestFitL_spec hw0 hbf
  cases pre with
  | cons a pre' =>
    have hlen := congrArg List.length hbl
    simp at hlen
  | nil =>
    rw [List.nil_append] at hbl
    injection hbl with hb1 hb2
    have hs : S = s := congrArg Blk.size hb1
    subst hs
    have hsuf : suf = [] := hb2.symm
    subst hsuf
    have ho0 : o = 0 := ho
    subst ho0
    simp only [initHeap_base] at hp
    have hpv : p = base + 4 := by omega
    by_cases hex : needSize n = S
    · obtain ⟨h1', heq1, hrd1, hoth1, hbase1, halloc1, hof1⟩ :=
        myAlloc_exact hf0 hw0 (List.nil_append ((⟨S, false⟩ : Blk) :: [])).symm
          rfl hbf hn (by rw [initHeap_allocsize]; exact hna) hex.symm
      rw [heq1] at hr
      have hpair := Option.some.inj hr
      have hh1 : h1 = h1' := (congrArg Prod.snd hpair).symm
      subst hh1
      rw [initHeap_base] at hbase1
      rw [initHeap_allocsize] at halloc1
      have hof1' : HeapOf h1 [(⟨S, true⟩ : Blk)] := hof1
      have hw1 : WFL [(⟨S, true⟩ : Blk)] := by
        intro b hb
        simp at hb
        rw [hb]
        exact ⟨h8, hm⟩
      obtain ⟨h2, heq2, hfr1, hfr2, hfr3, hfr4, hfr5, hbase2, halloc2, hof2⟩ :=
        myFree_sim hof1' hw1 (List.nil_append ((⟨S, true⟩ : Blk) :: [])).symm
          (by rw [hbase1]; exact hb0) (by rw [hbase1]; exact hb8)
      have hpe : p = h1.base + sumSizes ([] : List Blk) + 4 := by
        show p = h1.base + 0 + 4
        rw [hbase1]
        omega
      have heq2' : myFree h1 p = (0, h2) := by
        rw [hpe]
        exact heq2
      have hof2' : HeapOf h2 [(⟨S, false⟩ : Blk)] := hof2
      obtain ⟨h3, heq3, hof3, hbase3, halloc3⟩ := coalesce_sim hof2' hw0
      have hof3' : HeapOf h3 [(⟨S, false⟩ : Blk)] := hof3
      have hlook := BlocksAt_lookup
        (List.nil_append ((⟨S, false⟩ : Blk) :: [])).symm hof3'.1
      have hhd : h3.read 0 = S + 2 := by
        have hx := hlook.1
        simp [sumSizes, hdrVal, lastAlloc] at hx
        exact hx
      have hft : h3.read (S - 4) = S := by
        have hx := hlook.2.1 rfl
        simp [sumSizes] at hx
        exact hx
      have hend : h3.read (0 + sumSizes ([] : List Blk) + (⟨S, false⟩ : Blk).size) = 1 :=
        hlook.2.2
      have hend' : h3.read S = 1 := by
        have hx := hend
        simp [sumSizes] at hx
        exact hx
      refine ⟨h2, h3, heq2', heq3, hhd, hft, hend', hof3', ?_, ?_⟩
      · rw [hbase3, hbase2, hbase1]
      · rw [halloc3, halloc2, halloc1]
    · have hlt : needSize n < S := lt_of_le_of_ne hns hex
      obtain ⟨h1', heq1, hrd1, hrd2, hrd3, hoth1, hbase1, halloc1, hof1⟩ :=
        myAlloc_split hf0 hw0 (List.nil_append ((⟨S, false⟩ : Blk) :: [])).symm
          rfl hbf hn (by rw [initHeap_allocsize]; exact hna) hlt
      rw [heq1] at hr
      have hpair := Option.some.inj hr
      have hh1 : h1 = h1' := (congrArg Prod.snd hpair).symm
      subst hh1
      rw [initHeap_base] at hbase1
      rw [initHeap_allocsize] at halloc1
      have hof1' : HeapOf h1
          [(⟨needSize n, true⟩ : Blk), (⟨S - needSize n, false⟩ : Blk)] := hof1
      have hnd8 : (8 : Int) ≤ needSize n := needSize_pos hn
      have hndm : needSize n % 8 = 0 := needSize_mod8 n
      have hrem8 : (8 : Int) ≤ S - needSize n := by omega
      have hremm : (S - needSize n) % 8 = 0 := by omega
      have hw1 : WFL [(⟨needSize n, true⟩ : Blk), (⟨S - needSize n, false⟩ : Blk)] := by
        intro b hb
        simp at hb
        rcases hb with hb | hb
        · rw [hb]
          exact ⟨hnd8, hndm⟩
        · rw [hb]
          exact ⟨hrem8, hremm⟩
      obtain ⟨h2, heq2, hfr1, hfr2, hfr3, hfr4, hfr5, hbase2, halloc2, hof2⟩ :=
        myFree_sim hof1' hw1
          (List.nil_append ((⟨needSize n, true⟩ : Blk) :: [(⟨S - needSize n, false⟩ : Blk)])).symm
          (by rw [hbase1]; exact hb0) (by rw [hbase1]; exact hb8)
      have hpe : p = h1.base + sumSizes ([] : List Blk) + 4 := by
        show p = h1.base + 0 + 4
        rw [hbase1]
        omega
      have heq2' : myFree h1 p = (0, h2) := by
        rw [hpe]
        exact heq2
      have hof2' : HeapOf h2
          [(⟨needSize n, false⟩ : Blk), (⟨S - needSize n, false⟩ : Blk)] := hof2
      have hw2 : WFL [(⟨needSize n, false⟩ : Blk), (⟨S - needSize n, false⟩ : Blk)] := by
        intro b hb
        simp at hb
        rcases hb with hb | hb
        · rw [hb]
          exact ⟨hnd8, hndm⟩
        · rw [hb]
          exact ⟨hrem8, hremm⟩
      obtain ⟨h3, heq3, hof3, hbase3, halloc3⟩ := coalesce_sim hof2' hw2
      have hclv : coalesceL [(⟨needSize n, false⟩ : Blk), (⟨S - needSize n, false⟩ : Blk)] =
          [(⟨S, false⟩ : Blk)] := by
        simp [coalesceL, coalRec]
        all_goals omega
      rw [hclv] at hof3
      have hlook := BlocksAt_lookup
        (List.nil_append ((⟨S, false⟩ : Blk) :: [])).symm hof3.1
      have hhd : h3.read 0 = S + 2 := by
        have hx := hlook.1
        simp [sumSizes, hdrVal, lastAlloc] at hx
        exact hx
      have hft : h3.read (S - 4) = S := by
        have hx := hlook.2.1 rfl
        simp [sumSizes] at hx
        exact hx
      have hend : h3.read (0 + sumSizes ([] : List Blk) + (⟨S, false⟩ : Blk).size) = 1 :=
        hlook.2.2
      have hend' : h3.read S = 1 := by
        have hx := hend
        simp [sumSizes] at hx
        exact hx
      refine ⟨h2, h3, heq2', heq3, hhd, hft, hend', hof3, ?_, ?_⟩
      · rw [hbase3, hbase2, hbase1]
      · rw [halloc3, halloc2, halloc1]

theorem alloc_free_coalesce_roundtrip_witness :
    ∃ h1 h2 h3, myAlloc (initHeap 48 4100) 20 = some (some 4104, h1) ∧
      myFree h1 4104 = (0, h2) ∧ coalesce h2 = some h3 ∧
      h3.read 0 = 50 ∧ h3.read 44 = 48 ∧ h3.read 48 = 1 := by
  have hfst : (myAlloc (initHeap 48 4100) 20).map Prod.fst = some (some 4104) := by decide
  cases hmr : myAlloc (initHeap 48 4100) 20 with
  | none => rw [hmr] at hfst; simp at hfst
  | some r =>
    obtain ⟨ro, h1⟩ := r
    rw [hmr] at hfst
    have hro : ro = some 4104 := by simpa using hfst
    subst hro
    obtain ⟨h2, h3, hfr, hco, hhd, hft, hend, -, -, -⟩ :=
      alloc_free_coalesce_roundtrip 48 4100 20 4104 h1
        (by norm_num) (by norm_num) (by norm_num) (by norm_num) hmr
    refine ⟨h1, h2, h3, rfl, hfr, hco, ?_, ?_, hend⟩
    · norm_num at hhd
      exact hhd
    · norm_num at hft
      exact hft
